import Mathlib

/-!
Verification development for the moss-desktop document synchronization engine
(`rm_api/storage/v3.py` and its collaborators).

The Python source is shallowly embedded: pure computations become Lean
functions, the HTTP transport and the on-disk cache become explicit
environment records, and the stateful tree-sync loop becomes a fold over an
explicit state.  Machine integers are modelled as `Nat` with explicit
`% 2 ^ 32` where the source relies on 32-bit wraparound (sha256, crc32c).
-/

namespace Moss

/-! ## Byte and hex helpers -/

/-- Value of one hexadecimal digit.  `bytes.fromhex` in the source raises on an
invalid digit; the claims only evaluate this on valid hex, where the model
agrees, and an invalid digit is mapped to 0. -/
def hexVal (c : Char) : Nat :=
  if '0' ≤ c ∧ c ≤ '9' then c.toNat - '0'.toNat
  else if 'a' ≤ c ∧ c ≤ 'f' then c.toNat - 'a'.toNat + 10
  else if 'A' ≤ c ∧ c ≤ 'F' then c.toNat - 'A'.toNat + 10
  else 0

/-- `bytes.fromhex`: decode a hex string two digits per byte.  (The source
raises on odd length; a trailing lone digit is dropped here.) -/
def bytesFromHexChars : List Char → List Nat
  | c1 :: c2 :: rest => (16 * hexVal c1 + hexVal c2) :: bytesFromHexChars rest
  | _ => []

def bytesFromHex (s : String) : List Nat := bytesFromHexChars s.data

/-- Hex digit character for a value < 16 (lowercase, as `hexdigest`). -/
def hexDigitChar (n : Nat) : Char :=
  if n < 10 then Char.ofNat ('0'.toNat + n) else Char.ofNat ('a'.toNat + (n - 10))

/-- Render a 32-bit word as 8 lowercase hex digits (big-endian nibbles). -/
def wordToHex (w : Nat) : List Char :=
  [hexDigitChar (w / 16 ^ 7 % 16), hexDigitChar (w / 16 ^ 6 % 16),
   hexDigitChar (w / 16 ^ 5 % 16), hexDigitChar (w / 16 ^ 4 % 16),
   hexDigitChar (w / 16 ^ 3 % 16), hexDigitChar (w / 16 ^ 2 % 16),
   hexDigitChar (w / 16 % 16), hexDigitChar (w % 16)]

/-! ## SHA-256 (as used by `hashlib.sha256`) -/

namespace SHA256

def w32 : Nat := 4294967296

def add32 (x y : Nat) : Nat := (x + y) % w32

def rotr (n x : Nat) : Nat := (x >>> n ||| x <<< (32 - n)) % w32

def shr (n x : Nat) : Nat := x >>> n

/-- The 64 round constants (the fractional parts of the cube roots of the
first 64 primes), written in decimal. -/
def K : List Nat :=
  [1116352408, 1899447441, 3049323471, 3921009573, 961987163, 1508970993,
   2453635748, 2870763221, 3624381080, 310598401, 607225278, 1426881987,
   1925078388, 2162078206, 2614888103, 3248222580, 3835390401, 4022224774,
   264347078, 604807628, 770255983, 1249150122, 1555081692, 1996064986,
   2554220882, 2821834349, 2952996808, 3210313671, 3336571891, 3584528711,
   113926993, 338241895, 666307205, 773529912, 1294757372, 1396182291,
   1695183700, 1986661051, 2177026350, 2456956037, 2730485921, 2820302411,
   3259730800, 3345764771, 3516065817, 3600352804, 4094571909, 275423344,
   430227734, 506948616, 659060556, 883997877, 958139571, 1322822218,
   1537002063, 1747873779, 1955562222, 2024104815, 2227730452, 2361852424,
   2428436474, 2756734187, 3204031479, 3329325298]

/-- The initial hash state (fractional parts of the square roots of the
first 8 primes), written in decimal. -/
def initH : List Nat :=
  [1779033703, 3144134277, 1013904242, 2773480762,
   1359893119, 2600822924, 528734635, 1541459225]

/-- Pad a byte message per SHA-256: append 0x80, zeros to 56 mod 64, then the
bit length as 8 big-endian bytes. -/
def pad (msg : List Nat) : List Nat :=
  let len := msg.length
  let zeros := (119 - len % 64) % 64
  let bitLen := len * 8
  msg ++ [128] ++ List.replicate zeros 0 ++
    [bitLen / 2 ^ 56 % 256, bitLen / 2 ^ 48 % 256, bitLen / 2 ^ 40 % 256,
     bitLen / 2 ^ 32 % 256, bitLen / 2 ^ 24 % 256, bitLen / 2 ^ 16 % 256,
     bitLen / 2 ^ 8 % 256, bitLen % 256]

/-- Split a list into chunks of 64 (structural recursion on a fuel bound so
that the kernel can evaluate it). -/
def chunk64Aux : Nat → List Nat → List (List Nat)
  | 0, _ => []
  | _, [] => []
  | fuel + 1, a :: t => ((a :: t).take 64) :: chunk64Aux fuel ((a :: t).drop 64)

def chunk64 (l : List Nat) : List (List Nat) := chunk64Aux l.length l

/-- Combine 4 bytes big-endian into one 32-bit word; a 64-byte block becomes
16 words. -/
def toWords : List Nat → List Nat
  | b0 :: b1 :: b2 :: b3 :: rest =>
      (b0 * 2 ^ 24 + b1 * 2 ^ 16 + b2 * 2 ^ 8 + b3) :: toWords rest
  | _ => []

/-- Extend 16 message words to 64 (one extension step; `t = w.length`). -/
def extendStep (w : List Nat) : List Nat :=
  let t := w.length
  let w15 := w.getD (t - 15) 0
  let w2 := w.getD (t - 2) 0
  let s0 := (Nat.xor (Nat.xor (rotr 7 w15) (rotr 18 w15)) (shr 3 w15))
  let s1 := (Nat.xor (Nat.xor (rotr 17 w2) (rotr 19 w2)) (shr 10 w2))
  w ++ [add32 (add32 (w.getD (t - 16) 0) s0) (add32 (w.getD (t - 7) 0) s1)]

def schedule (w : List Nat) : List Nat :=
  (List.range 48).foldl (fun acc _ => extendStep acc) w

/-- One compression round; state is the 8 working words `[a,b,c,d,e,f,g,h]`. -/
def round (st : List Nat) (kt wt : Nat) : List Nat :=
  match st with
  | [a, b, c, d, e, f, g, h] =>
      let s1 := Nat.xor (Nat.xor (rotr 6 e) (rotr 11 e)) (rotr 25 e)
      let ch := Nat.xor (Nat.land e f) (Nat.land ((w32 - 1) - e) g)
      let temp1 := add32 (add32 (add32 h s1) (add32 ch kt)) wt
      let s0 := Nat.xor (Nat.xor (rotr 2 a) (rotr 13 a)) (rotr 22 a)
      let maj := Nat.xor (Nat.xor (Nat.land a b) (Nat.land a c)) (Nat.land b c)
      let temp2 := add32 s0 maj
      [add32 temp1 temp2, a, b, c, add32 d temp1, e, f, g]
  | other => other

/-- Compress one 64-byte block into the running hash. -/
def compress (hs : List Nat) (block : List Nat) : List Nat :=
  let ws := schedule (toWords block)
  let fin := (List.zip K ws).foldl (fun st kw => round st kw.1 kw.2) hs
  (List.zip hs fin).map (fun p => add32 p.1 p.2)

/-- SHA-256 digest of a byte sequence, as eight 32-bit words. -/
def hashWords (msg : List Nat) : List Nat :=
  (chunk64 (pad msg)).foldl compress initH

end SHA256

/-- `hashlib.sha256(...).hexdigest()`: lowercase hex digest of a byte list. -/
def sha256hex (msg : List Nat) : String :=
  String.mk ((SHA256.hashWords msg).map wordToHex).flatten

example : sha256hex [] =
    "e3b0c44298fc1c149afbf4c8996fb92427ae41e4649b934ca495991b7852b855" := by
  decide

/-! ## Index entries (`rm_api.models.File` lines as used by v3.py) -/

/-- One line of an index: hash, id/uuid, kind discriminator, size. -/
structure FileEntry where
  hash : String
  uuid : String
  kind : Nat
  size : Nat
deriving DecidableEq, Repr

/-- `EXTENSION_ORDER` (v3.py line 31). -/
def EXTENSION_ORDER : List String := ["content", "metadata", "rm"]

/-- `s.rsplit('.', 1)[-1]`: the part after the last dot, or the whole string
when there is no dot (computed as the longest dot-free suffix). -/
def lastDotComponent (s : String) : String :=
  String.mk ((s.data.reverse.takeWhile (fun c => ¬ c = '.')).reverse)

/-- `get_file_item_order` (v3.py lines 34-38): index of the extension in
`EXTENSION_ORDER`, and `-1` when the lookup raises `ValueError`. -/
def get_file_item_order (item : FileEntry) : Int :=
  match EXTENSION_ORDER.findIdx? (fun e => e = lastDotComponent item.uuid) with
  | some i => (i : Int)
  | none => -1

/-! ## Stable sorting (Python's `sorted` / `list.sort` with a key) -/

def intLe (a b : Int) : Bool := a ≤ b

/-- Lexicographic comparison of code-point sequences: Python's `<=` on
strings. -/
def strCharsLe : List Char → List Char → Bool
  | [], _ => true
  | _ :: _, [] => false
  | a :: as, b :: bs =>
      if a.toNat < b.toNat then true
      else if b.toNat < a.toNat then false
      else strCharsLe as bs

def strLe (a b : String) : Bool := strCharsLe a.data b.data

/-- Stable insertion: the new element goes before the first strictly greater
key, hence after all earlier elements with an equal key. -/
def insertByKey {α β : Type} (le : β → β → Bool) (key : α → β) (x : α) :
    List α → List α
  | [] => [x]
  | y :: ys =>
      if le (key x) (key y) then x :: y :: ys else y :: insertByKey le key x ys

/-- Stable sort by key: the model of Python's stable `sorted(l, key=...)`. -/
def sortByKey {α β : Type} (le : β → β → Bool) (key : α → β) :
    List α → List α
  | [] => []
  | x :: xs => insertByKey le key x (sortByKey le key xs)

theorem strCharsLe_refl (l : List Char) : strCharsLe l l = true := by
  induction l with
  | nil => rfl
  | cons a as ih => simp [strCharsLe, ih]

theorem strLe_refl (s : String) : strLe s s = true := strCharsLe_refl s.data

/-- Sorting by a constant key is the identity (stability plus reflexivity of
the comparison). -/
theorem sortByKey_const {α β : Type} (le : β → β → Bool) (c : β)
    (hc : le c c = true) (l : List α) : sortByKey le (fun _ => c) l = l := by
  induction l with
  | nil => rfl
  | cons x xs ih =>
      simp only [sortByKey, ih]
      cases xs with
      | nil => rfl
      | cons y ys => simp [insertByKey, hc]

/-! ## The per-document hash check (v3.py lines 296-301) -/

/-- The digest `get_documents_using_root` recomputes for one top-level entry:
`sorted(file_content, key=lambda item: file.uuid)` sorts by the *outer*
document's uuid — a constant for the whole list — and each constituent's hash
is hex-decoded and fed to sha256 in the resulting order. -/
def documentExpectedHash (fileUuid : String) (file_content : List FileEntry) :
    String :=
  sha256hex
    (((sortByKey strLe (fun _ => fileUuid) file_content).map
      (fun item => bytesFromHex item.hash)).flatten)

/-- Modelled from the spec: the hash-integrity invariant of §3 — sha256 over
each constituent file's hex-decoded hash in *uuid-sorted* order of the
constituent files. -/
def specDocumentExpectedHash (file_content : List FileEntry) : String :=
  sha256hex
    (((sortByKey strLe (fun item => item.uuid) file_content).map
      (fun item => bytesFromHex item.hash)).flatten)

/-! ## JSON values (results of `response.json()` / `json.loads`) -/

inductive JsonVal where
  | null
  | b (v : Bool)
  | n (v : Int)
  | s (v : String)
  | arr (items : List JsonVal)
  | obj (fields : List (String × JsonVal))

/-! ## `make_storage_request` (v3.py lines 41-57) -/

/-- An HTTP response as seen through `requests`: status code, body text
(`response.text` / `response.content`), and the JSON parse of the body
(`none` when `response.json()` raises `JSONDecodeError`). -/
structure HttpResponse where
  status_code : Nat
  text : String
  json : Option JsonVal

/-- `response.ok` in `requests`: true iff the status code is below 400. -/
def HttpResponse.ok (r : HttpResponse) : Bool := r.status_code < 400

inductive StorageResult where
  | jsonRes (j : JsonVal)
  | textRes (s : String)
  | noneRes

/-- Modelled from the spec: `NewSyncRequired`, the distinguishable
"incompatible sync protocol" error (the exceptions module is not among the
sources; the spec calls it the protocol-version signal). -/
inductive StorageError where
  | newSyncRequired
deriving DecidableEq

structure StorageOutcome where
  result : Except StorageError StorageResult
  /-- `api.use_new_sync` after the call (set on a 400 response). -/
  use_new_sync : Bool

def make_storage_request (use_new_sync0 : Bool) (response : HttpResponse) :
    StorageOutcome :=
  if response.status_code = 400 then
    { result := .error .newSyncRequired, use_new_sync := true }
  else if response.status_code ≠ 200 then
    { result := .ok .noneRes, use_new_sync := use_new_sync0 }
  else
    match response.json with
    | some j => { result := .ok (.jsonRes j), use_new_sync := use_new_sync0 }
    | none => { result := .ok (.textRes response.text), use_new_sync := use_new_sync0 }

/-! ## `make_files_request` (v3.py lines 60-114) -/

/-- The environment a files request runs against: the configured cache
directory, the on-disk cache (contents by path, `none` when the file does not
exist), a `json.loads` oracle, and the transport's response for a given
method and file key. -/
structure FilesEnv where
  sync_file_path : Option String
  cacheFile : String → Option String
  parseJson : String → Option JsonVal
  response : String → String → HttpResponse

inductive FilesResult where
  | noneV
  | boolV (v : Bool)
  | bytesV (s : String)
  | textV (s : String)
  | jsonV (j : JsonVal)

inductive FilesError where
  | requestFailed (status : Nat) (text : String)
deriving DecidableEq

structure FilesOutcome where
  result : Except FilesError FilesResult
  /-- whether the transport was hit -/
  networkUsed : Bool
  /-- whether the response was persisted to the cache path -/
  cacheWritten : Bool

/-- `b'\x7b"message":"invalid hash"\x7d\n'` (v3.py line 98). -/
def invalidHashBody : String := "\x7b\"message\":\"invalid hash\"\x7d\n"

/-- The cache location for a key: `os.path.join(api.sync_file_path, file)`,
`none` when no sync path is configured. -/
def cacheLocation (env : FilesEnv) (file : String) : Option String :=
  env.sync_file_path.map (fun p => p ++ "/" ++ file)

/-- The cached contents for a key, `none` on a cache miss (no configured path
or no file at the location). -/
def cacheLookup (env : FilesEnv) (file : String) : Option String :=
  match cacheLocation env file with
  | some loc => env.cacheFile loc
  | none => none

/-- `json.loads` then fall back to raw text (v3.py lines 82-85, 111-114). -/
def jsonOrText (env : FilesEnv) (s : String) : FilesResult :=
  match env.parseJson s with
  | some j => .jsonV j
  | none => .textV s

def make_files_request (env : FilesEnv) (method file : String)
    (binary use_cache enforce_cache : Bool) : FilesOutcome :=
  let head := method = "HEAD"
  let method1 := if head then "GET" else method
  match use_cache, cacheLookup env file with
  | true, some data =>
      if head then
        { result := .ok (.boolV true), networkUsed := false, cacheWritten := false }
      else if binary then
        { result := .ok (.bytesV data), networkUsed := false, cacheWritten := false }
      else
        { result := .ok (jsonOrText env data), networkUsed := false, cacheWritten := false }
  | _, _ =>
      if enforce_cache then
        -- Checked cache and it wasn't there
        { result := .ok .noneV, networkUsed := false, cacheWritten := false }
      else
        let response := env.response method1 file
        if head ∧ (response.status_code = 302 ∨ response.status_code = 404 ∨
            response.status_code = 200) then
          { result := .ok (.boolV (response.status_code ≠ 404)),
            networkUsed := true, cacheWritten := false }
        else if response.text = invalidHashBody then
          { result := .ok .noneV, networkUsed := true, cacheWritten := false }
        else if ¬ response.ok then
          { result := .error (.requestFailed response.status_code response.text),
            networkUsed := true, cacheWritten := false }
        else if binary then
          { result := .ok (.bytesV response.text), networkUsed := true,
            cacheWritten := (cacheLocation env file).isSome }
        else
          { result := .ok (jsonOrText env response.text), networkUsed := true,
            cacheWritten := (cacheLocation env file).isSome }

/-! ## CRC32C and base64 (checksum header of the upload pipeline) -/

/-- One bit step of the reflected CRC-32C (Castagnoli) polynomial. -/
def crcBitStep (c : Nat) : Nat :=
  if c % 2 = 1 then Nat.xor (c >>> 1) 0x82F63B78 else c >>> 1

/-- Fold one byte into the running CRC. -/
def crcByteStep (crc b : Nat) : Nat :=
  crcBitStep (crcBitStep (crcBitStep (crcBitStep
    (crcBitStep (crcBitStep (crcBitStep (crcBitStep (Nat.xor crc (b % 256)))))))))

/-- `crc32c(data)` from the `crc32c` package: reflected CRC-32C with initial
value and final xor `0xFFFFFFFF`. -/
def crc32cOf (data : List Nat) : Nat :=
  Nat.xor (data.foldl crcByteStep 0xFFFFFFFF) 0xFFFFFFFF

/-- `crc_result.to_bytes(4, 'big')`. -/
def natToBytes4BE (n : Nat) : List Nat :=
  [n / 2 ^ 24 % 256, n / 2 ^ 16 % 256, n / 2 ^ 8 % 256, n % 256]

def base64Chars : List Char :=
  "ABCDEFGHIJKLMNOPQRSTUVWXYZabcdefghijklmnopqrstuvwxyz0123456789+/".data

def base64Digit (i : Nat) : Char := base64Chars.getD i '?'

/-- `base64.b64encode` over a byte list. -/
def b64encode : List Nat → List Char
  | [] => []
  | [b0] =>
      [base64Digit (b0 >>> 2), base64Digit ((b0 % 4) <<< 4), '=', '=']
  | [b0, b1] =>
      [base64Digit (b0 >>> 2), base64Digit ((b0 % 4) <<< 4 ||| b1 >>> 4),
       base64Digit ((b1 % 16) <<< 2), '=']
  | b0 :: b1 :: b2 :: rest =>
      base64Digit (b0 >>> 2) :: base64Digit ((b0 % 4) <<< 4 ||| b1 >>> 4) ::
      base64Digit ((b1 % 16) <<< 2 ||| b2 >>> 6) :: base64Digit (b2 % 64) ::
      b64encode rest

/-- Substring check, as Python's `needle in text`. -/
def strContains (needle hay : String) : Bool :=
  hay.data.tails.any (fun t => needle.data.isPrefixOf t)

/-! ## `fetch_with_retries` (v3.py lines 117-150) -/

/-- The slice of `urllib3.Retry` the loop reads: `total`, `backoff_factor`
and `status_forcelist`.  The backoff factor is a float in the source; it is
modelled as a rational. -/
structure RetryStrategy where
  total : Nat
  backoff_factor : ℚ
  status_forcelist : List Nat

/-- A response of the asynchronous transport: status, headers and body text. -/
structure UploadResponse where
  status : Nat
  headers : String → Option String
  body : String

/-- What one transport attempt does: either a response is produced and read,
or the attempt times out (`asyncio.TimeoutError`).  Other exceptions escape
the loop uncaught and are not modelled. -/
inductive AttemptOutcome where
  | resp (r : UploadResponse)
  | timeoutErr

/-- The exceptions the loop catches and re-raises. -/
inductive FetchError where
  | clientResponseError (status : Nat)
  | timeoutError

/-- Observable behavior of one `fetch_with_retries` call: the returned value
(`Except` for a raised error; `none` inside `ok` models falling off the loop
when `total = 0`, which returns Python `None`), the number of transport
attempts, the number of `data_adapter.reset()` calls, and the backoff sleeps
in order. -/
structure FetchResult where
  result : Except FetchError (Option UploadResponse)
  requests : Nat
  resets : Nat
  sleeps : List ℚ

/-- The `except` branch (v3.py lines 143-150): bump the attempt counter; when
budget remains, rewind the adapter and sleep `backoff_factor * 2^(attempt-1)`
before the next attempt (`rest`), else re-raise. -/
def retryStep (st : RetryStrategy) (attempt1 : Nat) (e : FetchError)
    (rest : FetchResult) : FetchResult :=
  if attempt1 < st.total then
    { result := rest.result, requests := 1 + rest.requests,
      resets := 1 + rest.resets,
      sleeps := st.backoff_factor * 2 ^ (attempt1 - 1) :: rest.sleeps }
  else
    { result := .error e, requests := 1, resets := 0, sleeps := [] }

/-- The `while attempt < retries` loop, with `fuel = retries - attempt`.
A response whose status is in the forcelist raises `ClientResponseError`;
that and `TimeoutError` enter the retry branch, anything else returns. -/
def fetchGo (attempts : Nat → AttemptOutcome) (st : RetryStrategy) :
    Nat → Nat → FetchResult
  | _, 0 => { result := .ok none, requests := 0, resets := 0, sleeps := [] }
  | attempt, fuel + 1 =>
      match attempts attempt with
      | .resp r =>
          if r.status ∈ st.status_forcelist then
            retryStep st (attempt + 1) (.clientResponseError r.status)
              (fetchGo attempts st (attempt + 1) fuel)
          else
            { result := .ok (some r), requests := 1, resets := 0, sleeps := [] }
      | .timeoutErr =>
          retryStep st (attempt + 1) .timeoutError
            (fetchGo attempts st (attempt + 1) fuel)

def fetch_with_retries (attempts : Nat → AttemptOutcome)
    (st : RetryStrategy) : FetchResult :=
  fetchGo attempts st 0 st.total

/-! ## `put_file_async` (v3.py lines 153-230) -/

/-- Python dict update `d[k] = v` preserving insertion order (as the
`\x7b**base, k: v\x7d` literals do). -/
def dictSet (d : List (String × String)) (k v : String) :
    List (String × String) :=
  if d.any (fun p => p.1 = k) then
    d.map (fun p => if p.1 = k then (k, v) else p)
  else d ++ [(k, v)]

def dictGet (d : List (String × String)) (k : String) : Option String :=
  (d.find? (fun p => p.1 = k)).map (fun p => p.2)

/-- The slice of the `API` object the pipeline reads. -/
structure ApiConfig where
  document_storage_uri : String
  session_headers : List (String × String)
  retry_strategy : RetryStrategy

/-- The slice of `models.File` the pipeline reads. -/
structure UploadFile where
  hash : String
  rm_filename : String
  uuid : String

/-- The transport behavior of one round of the upload (one recursion depth of
`put_file_async`): the attempt stream of the PUT to the reMarkable endpoint
and, if redirected, the attempt stream of the PUT to the google signed url. -/
structure UploadRound where
  primary : Nat → AttemptOutcome
  google : Nat → AttemptOutcome

/-- One `fetch_with_retries` invocation as issued by the pipeline. -/
structure FetchCallLog where
  url : String
  headers : List (String × String)
  fetch : FetchResult

inductive PutOutcome where
  | ok (b : Bool)
  /-- an unhandled exception escapes `put_file_async`
  (e.g. `response.status` on `None`) -/
  | pythonError
  /-- modelling artifact: the bound on the source's unbounded
  expired-token recursion was exhausted -/
  | fuelOut

/-- Observable behavior of `put_file_async`: the returned value, the fetches
issued in order, `data_adapter.reset()` count (explicit resets plus those
inside the retry loops), `sync_event.finish_task()` count, `add_task` count
and the total bytes registered on the sync event. -/
structure PutResult where
  outcome : PutOutcome
  calls : List FetchCallLog
  resets : Nat
  finishes : Nat
  tasksAdded : Nat
  totalAdded : Nat

/-- Lines 215-230: what happens once the final response of this round is in
hand.  `recOpt` is the outcome of the recursive self-retry (`none` when the
model's recursion bound is exhausted); `calls`/`resets` accumulate this
round's fetches so far. -/
def afterFinal (recOpt : Option PutResult) (content_length : Nat)
    (calls : List FetchCallLog) (resets : Nat) (resp : UploadResponse) :
    PutResult :=
  if resp.status == 400 && strContains "<Code>ExpiredToken</Code>" resp.body then
    match recOpt with
    | none =>
        { outcome := .fuelOut, calls := calls, resets := resets + 1,
          finishes := 1, tasksAdded := 1, totalAdded := content_length }
    | some recRes =>
        { outcome := recRes.outcome, calls := calls ++ recRes.calls,
          resets := resets + 1 + recRes.resets,
          finishes := 1 + recRes.finishes,
          tasksAdded := 1 + recRes.tasksAdded,
          totalAdded := content_length + recRes.totalAdded }
  else if resp.status ≠ 200 then
    { outcome := .ok false, calls := calls, resets := resets, finishes := 0,
      tasksAdded := 1, totalAdded := content_length }
  else
    { outcome := .ok true, calls := calls, resets := resets, finishes := 1,
      tasksAdded := 1, totalAdded := content_length }

/-- `put_file_async`, one round per recursion depth; `data` is the byte
buffer (a `FileHandle` streams the same bytes). -/
def put_file_async (env : Nat → UploadRound) (api : ApiConfig)
    (file : UploadFile) (data : List Nat) : Nat → Nat → PutResult
  | fuel, round =>
    let checksum := String.mk (b64encode (natToBytes4BE (crc32cOf data)))
    let content_length := data.length
    let headers :=
      dictSet (dictSet (dictSet (dictSet api.session_headers
        "content-length" (toString content_length))
        "content-type" "application/octet-stream")
        "rm-filename" file.rm_filename)
        "x-goog-hash" ("crc32c=" ++ checksum)
    let primary := fetch_with_retries (env round).primary api.retry_strategy
    let call1 : FetchCallLog :=
      { url := api.document_storage_uri ++ "sync/v3/files/" ++ file.hash,
        headers := headers, fetch := primary }
    let recOpt : Option PutResult :=
      match fuel with
      | 0 => none
      | fuel1 + 1 => some (put_file_async env api file data fuel1 (round + 1))
    match primary.result with
    | .error _ =>
        -- `except: api.log(format_exc()); return False`
        { outcome := .ok false, calls := [call1], resets := primary.resets,
          finishes := 0, tasksAdded := 1, totalAdded := content_length }
    | .ok none =>
        { outcome := .pythonError, calls := [call1], resets := primary.resets,
          finishes := 0, tasksAdded := 1, totalAdded := content_length }
    | .ok (some resp) =>
        if resp.status = 302 then
          -- reset the stream, then PUT to the signed url from the redirect
          match resp.headers "location", resp.headers "x-goog-content-length-range" with
          | some loc, some range1 =>
              let headers2 :=
                dictSet (dictSet headers "x-goog-content-length-range" range1)
                  "x-goog-hash" ("crc32c=" ++ checksum)
              let google := fetch_with_retries (env round).google api.retry_strategy
              let call2 : FetchCallLog :=
                { url := loc, headers := headers2, fetch := google }
              match google.result with
              | .error _ =>
                  { outcome := .ok false, calls := [call1, call2],
                    resets := primary.resets + 1 + google.resets,
                    finishes := 0, tasksAdded := 1, totalAdded := content_length }
              | .ok none =>
                  { outcome := .pythonError, calls := [call1, call2],
                    resets := primary.resets + 1 + google.resets,
                    finishes := 0, tasksAdded := 1, totalAdded := content_length }
              | .ok (some resp2) =>
                  afterFinal recOpt content_length [call1, call2]
                    (primary.resets + 1 + google.resets) resp2
          | _, _ =>
              -- KeyError on the missing header, caught by the bare except
              { outcome := .ok false, calls := [call1],
                resets := primary.resets + 1, finishes := 0, tasksAdded := 1,
                totalAdded := content_length }
        else
          afterFinal recOpt content_length [call1] primary.resets resp

/-! ## Association lists: the model of Python `dict` (insertion-ordered,
unique keys) -/

def alGet {α : Type} (m : List (String × α)) (k : String) : Option α :=
  (m.find? (fun p => p.1 = k)).map (fun p => p.2)

/-- `d[k] = v`: replace in place, else append. -/
def alSet {α : Type} (m : List (String × α)) (k : String) (v : α) :
    List (String × α) :=
  if m.any (fun p => p.1 = k) then
    m.map (fun p => if p.1 = k then (k, v) else p)
  else m ++ [(k, v)]

/-- `del d[k]`. -/
def alDel {α : Type} (m : List (String × α)) (k : String) :
    List (String × α) :=
  m.filter (fun p => ¬ p.1 = k)

/-- In-place mutation of the object stored at `k` (attribute assignment on
the aliased value). -/
def alModify {α : Type} (m : List (String × α)) (k : String) (f : α → α) :
    List (String × α) :=
  m.map (fun p => if p.1 = k then (p.1, f p.2) else p)

/-- `set.add`, keeping first-insertion order (only membership is ever read). -/
def setAdd (l : List String) (x : String) : List String :=
  if x ∈ l then l else l ++ [x]

/-! ## The document/collection object model

`rm_api.models` is not among the sources; these are modelled from the spec
(§3 Data Model). -/

/-- Modelled from the spec: `models.Metadata` as the engine reads it — the
declared type string, the parent uuid, and the hash it was parsed from. -/
structure Metadata where
  type : String
  parent : String
  hash : String
deriving DecidableEq, Repr

/-- Modelled from the spec: `models.DocumentCollection` — uuid, hash-stamped
metadata, tags, and the derived `has_items` flag, false on construction. -/
structure DocumentCollection where
  uuid : String
  metadata : Metadata
  tags : List JsonVal
  has_items : Bool

def DocumentCollection.parent (c : DocumentCollection) : String :=
  c.metadata.parent

/-- Modelled from the spec: `models.Document` — uuid, metadata, parsed
content, the document's own (extension-ordered) file set, and the transient
`provision` flag, false when the engine constructs one from remote data. -/
structure Document where
  uuid : String
  metadata : Metadata
  content : Option JsonVal
  content_hash : String
  files : List FileEntry
  provision : Bool

def Document.parent (d : Document) : String := d.metadata.parent

/-- The in-memory tree maps owned by the resolver. -/
structure SyncState where
  document_collections : List (String × DocumentCollection)
  documents : List (String × Document)

/-- What the resolver reads from the remote (through the content store):
per-hash index listings (`get_file`; a failed request yields `[]`), the
`.content` blob fetch (`none` when `get_file_contents` raises; a returned
non-JSON body is a non-dict value), and the metadata blob parse (`none` when
fetching or `models.Metadata(...)` raises). -/
structure SyncRemote where
  index : String → List FileEntry
  contentOf : String → Option JsonVal
  metadataOf : String → Option (String × String)

def JsonVal.isObj : JsonVal → Bool
  | .obj _ => true
  | _ => false

/-- `content.get('tags', ())`: the `tags` field of the content dict; absent
tags (or a non-list value, whose iteration the source would mangle) give the
empty sequence. -/
def tagsOf : Option JsonVal → List JsonVal
  | some (.obj fields) =>
      match fields.find? (fun p => p.1 = "tags") with
      | some (_, JsonVal.arr l) => l
      | _ => []
  | _ => []

/-! ## `get_documents_using_root` (v3.py lines 264-393)

The root fetch itself (and its legacy-fallback, lines 265-284) is outside the
model: the resolver is entered with the decoded root index `files`. -/

/-- The mutable state of the reconciliation loop: the tree maps, the
`document_collections_with_items` set, the two delete-candidate sets and the
`badly_hashed` list (by uuid, in append order). -/
structure LoopState where
  colls : List (String × DocumentCollection)
  docs : List (String × Document)
  withItems : List String
  delColls : List String
  delDocs : List String
  badly : List String

/-- Lines 313-323: metadata hash unchanged for a known collection — drop it
from the delete candidates, clear `has_items` unless already marked, and mark
the parent. -/
def collFastPath (fileUuid : String) (oldColl : DocumentCollection)
    (ls : LoopState) : LoopState :=
  let delColls := ls.delColls.erase fileUuid
  let colls1 :=
    if oldColl.uuid ∈ ls.withItems then ls.colls
    else alModify ls.colls fileUuid (fun c => { c with has_items := false })
  let cw :=
    match alGet colls1 oldColl.parent with
    | some _ =>
        (alModify colls1 oldColl.parent (fun c => { c with has_items := true }),
         setAdd ls.withItems oldColl.parent)
    | none => (colls1, ls.withItems)
  { ls with delColls := delColls, colls := cw.1, withItems := cw.2 }

/-- Lines 324-332: metadata hash unchanged for a known document. -/
def docFastPath (fileUuid : String) (oldDoc : Document) (ls : LoopState) :
    LoopState :=
  let delDocs := ls.delDocs.erase fileUuid
  let colls1 :=
    match alGet ls.colls oldDoc.parent with
    | some _ => alModify ls.colls oldDoc.parent (fun c => { c with has_items := true })
    | none => ls.colls
  { ls with
    delDocs := delDocs, colls := colls1,
    withItems := setAdd ls.withItems oldDoc.parent }

/-- Lines 337-357: build/replace the collection record. -/
def createColl (fileUuid : String) (metadata : Metadata)
    (content : Option JsonVal) (ls : LoopState) : LoopState :=
  let newColl : DocumentCollection :=
    { uuid := fileUuid, metadata := metadata, tags := tagsOf content,
      has_items := false }
  let colls1 := alSet ls.colls fileUuid newColl
  let colls2 :=
    if fileUuid ∈ ls.withItems then
      alModify colls1 fileUuid (fun c => { c with has_items := true })
    else colls1
  let colls3 :=
    match alGet colls2 metadata.parent with
    | some _ => alModify colls2 metadata.parent (fun c => { c with has_items := true })
    | none => colls2
  { ls with
    colls := colls3,
    withItems := setAdd ls.withItems metadata.parent,
    delColls := ls.delColls.erase fileUuid }

/-- Lines 358-369: build/replace the document record. -/
def createDoc (fileUuid : String) (metadata : Metadata)
    (content : Option JsonVal) (contentHash : String)
    (file_content : List FileEntry) (matches_hash : Bool) (ls : LoopState) :
    LoopState :=
  let newDoc : Document :=
    { uuid := fileUuid, metadata := metadata, content := content,
      content_hash := contentHash, files := file_content, provision := false }
  let docs1 := alSet ls.docs fileUuid newDoc
  let badly1 := if matches_hash then ls.badly else ls.badly ++ [fileUuid]
  let colls1 :=
    match alGet ls.colls metadata.parent with
    | some _ => alModify ls.colls metadata.parent (fun c => { c with has_items := true })
    | none => ls.colls
  { ls with
    docs := docs1, badly := badly1, colls := colls1,
    withItems := setAdd ls.withItems metadata.parent,
    delDocs := ls.delDocs.erase fileUuid }

/-- Lines 333-369: fetch and parse the metadata blob, then branch on the
declared type (`continue` on a parse failure, nothing on an unknown type). -/
def parseMetadataPath (env : SyncRemote) (fileUuid : String)
    (sortedFC : List FileEntry) (matches_hash : Bool) (item : FileEntry)
    (content : Option JsonVal) (ls : LoopState) : LoopState :=
  match env.metadataOf item.hash with
  | none => ls
  | some md =>
      let metadata : Metadata :=
        { type := md.1, parent := md.2, hash := item.hash }
      if metadata.type = "CollectionType" then
        createColl fileUuid metadata content ls
      else if metadata.type = "DocumentType" then
        createDoc fileUuid metadata content item.hash sortedFC matches_hash ls
      else ls

/-- Lines 312-369: the `.metadata` item branch.  `sortedFC` is the (already
extension-sorted, in place) `file_content` that a new `Document` captures. -/
def applyMetadataItem (env : SyncRemote) (fileUuid : String)
    (sortedFC : List FileEntry) (matches_hash : Bool) (item : FileEntry)
    (content : Option JsonVal) (ls : LoopState) : LoopState :=
  match alGet ls.colls fileUuid with
  | some oldColl =>
      if oldColl.metadata.hash = item.hash then collFastPath fileUuid oldColl ls
      else parseMetadataPath env fileUuid sortedFC matches_hash item content ls
  | none =>
      match alGet ls.docs fileUuid with
      | some oldDoc =>
          if oldDoc.metadata.hash = item.hash then docFastPath fileUuid oldDoc ls
          else parseMetadataPath env fileUuid sortedFC matches_hash item content ls
      | none => parseMetadataPath env fileUuid sortedFC matches_hash item content ls

/-- Whether line 312's branch falls through to the next loop iteration
(`continue` on fast path or metadata parse failure) rather than `break`. -/
def metadataContinues (env : SyncRemote) (fileUuid : String)
    (item : FileEntry) (ls : LoopState) : Bool :=
  let parseContinues : Bool :=
    match env.metadataOf item.hash with
    | none => true
    | some md => ¬ (md.1 = "CollectionType" ∨ md.1 = "DocumentType")
  match alGet ls.colls fileUuid with
  | some oldColl => if oldColl.metadata.hash = item.hash then true else parseContinues
  | none =>
      match alGet ls.docs fileUuid with
      | some oldDoc => if oldDoc.metadata.hash = item.hash then true else parseContinues
      | none => parseContinues

/-- Lines 304-369: the inner `for item in file_content` loop, with its
`break`/`continue` structure and the running `content` variable. -/
def processItems (env : SyncRemote) (fileUuid : String)
    (sortedFC : List FileEntry) (matches_hash : Bool) :
    List FileEntry → Option JsonVal → LoopState → LoopState
  | [], _, ls => ls
  | item :: rest, content, ls =>
      if item.uuid = fileUuid ++ ".content" then
        match env.contentOf item.hash with
        | none => ls
        | some v =>
            if v.isObj then processItems env fileUuid sortedFC matches_hash rest (some v) ls
            else ls
      else if item.uuid = fileUuid ++ ".metadata" then
        let ls1 := applyMetadataItem env fileUuid sortedFC matches_hash item content ls
        if metadataContinues env fileUuid item ls then
          processItems env fileUuid sortedFC matches_hash rest content ls1
        else ls1
      else processItems env fileUuid sortedFC matches_hash rest content ls

/-- Lines 292-303 and the inner loop: fetch one top-level entry's index,
recompute the declared-hash check, extension-sort the items in place and
process them. -/
def processFile (env : SyncRemote) (fileE : FileEntry) (ls : LoopState) :
    LoopState :=
  let file_content := env.index fileE.hash
  let matches_hash : Bool := fileE.hash == documentExpectedHash fileE.uuid file_content
  let sortedFC := sortByKey intLe get_file_item_order file_content
  processItems env fileE.uuid sortedFC matches_hash sortedFC none ls

/-- Lines 292-370: the outer loop over the root's top-level entries, with the
`progress(i + 1, total)` call after each one. -/
def phaseA (env : SyncRemote) (total : Nat) :
    List FileEntry → Nat → LoopState → LoopState × List (Nat × Nat)
  | [], _, ls => (ls, [])
  | f :: rest, i, ls =>
      let ls1 := processFile env f ls
      let r := phaseA env total rest (i + 1) ls1
      (r.1, (i + 1, total) :: r.2)

def initLoopState (s : SyncState) : LoopState :=
  { colls := s.document_collections, docs := s.documents, withItems := [],
    delColls := s.document_collections.map (fun p => p.1),
    delDocs := s.documents.map (fun p => p.1), badly := [] }

structure SyncResult where
  state : SyncState
  progress : List (Nat × Nat)
  badly : List String

/-- Lines 264-393 after a successful root fetch.  The `for ... else` clauses
on lines 371-372 and 383-384 always run (the outer loops never `break`), so
`i` and `j` are reset to 0 before the deletion loops, whose `progress` calls
therefore restart their running index; `total` is enlarged by the remaining
delete candidates only after the file loop has finished.  `badly` records the
documents handed to `api.upload_many_documents` (a re-upload side effect that
does not touch the maps). -/
def get_documents_using_root (env : SyncRemote) (files : List FileEntry)
    (s : SyncState) : SyncResult :=
  let total := files.length
  let r := phaseA env total files 0 (initLoopState s)
  let lsA := r.1
  let total2 := total + lsA.delColls.length + lsA.delDocs.length
  let collsAfter := lsA.delColls.foldl (fun m u => alDel m u) lsA.colls
  let trB := (List.range lsA.delColls.length).map (fun j => (j + 1, total2))
  let docsAfter := lsA.delDocs.foldl (fun m u =>
    match alGet m u with
    | some d => if d.provision then m else alDel m u
    | none => m) lsA.docs
  let trC := (List.range lsA.delDocs.length).map (fun k => (k + 1, total2))
  { state := { document_collections := collsAfter, documents := docsAfter },
    progress := r.2 ++ trB ++ trC,
    badly := lsA.badly }

/-! ## The progress contract as the claims state it (for comparison with the
code's actual trace) -/

/-- Transcription of the claimed progress contract: `total` fixed at
`N + D` for every call, one call per unit of work, monotone `done`, and a
final call with `done = total`. -/
def claimedProgressContract (N D : Nat) (trace : List (Nat × Nat)) : Prop :=
  trace.length = N + D ∧
  (∀ p ∈ trace, p.2 = N + D) ∧
  List.Chain' (fun p q : Nat × Nat => p.1 ≤ q.1) trace ∧
  trace.getLast?.map (fun p => p.1) = some (N + D)

instance (N D : Nat) (trace : List (Nat × Nat)) :
    Decidable (claimedProgressContract N D trace) := by
  unfold claimedProgressContract; infer_instance

/-! ## Concrete fixtures used by witnesses and counterexamples -/

/-- A remote with an empty index everywhere and no readable blobs. -/
def emptyRemote : SyncRemote :=
  { index := fun _ => [], contentOf := fun _ => none, metadataOf := fun _ => none }

def fixColl (u parent h : String) : DocumentCollection :=
  { uuid := u, metadata := { type := "CollectionType", parent := parent, hash := h },
    tags := [], has_items := false }

def fixDoc (u h : String) (prov : Bool) : Document :=
  { uuid := u, metadata := { type := "DocumentType", parent := "", hash := h },
    content := none, content_hash := "", files := [], provision := prov }

/-- One stale collection, nothing else: the sync must delete it. -/
def oneStaleCollState : SyncState :=
  { document_collections := [("c", fixColl "c" "" "m")], documents := [] }

def oneEntryRoot : List FileEntry := [⟨"h1", "d", 0, 0⟩]

/-- A stale collection plus a provisioned and an unprovisioned document. -/
def staleMixedState : SyncState :=
  { document_collections := [("c", fixColl "c" "" "m")],
    documents := [("p", fixDoc "p" "hp" true), ("q", fixDoc "q" "hq" false)] }

/-- Remote for the idempotence counterexample: collections `C` (child,
parent `P`) and `P`, listed in that order in the root. -/
def nonIdemRemote : SyncRemote :=
  { index := fun h =>
      if h = "hC" then [⟨"mC", "C.metadata", 0, 0⟩]
      else if h = "hP" then [⟨"mP", "P.metadata", 0, 0⟩]
      else [],
    contentOf := fun _ => none,
    metadataOf := fun h =>
      if h = "mC" then some ("CollectionType", "P")
      else if h = "mP" then some ("CollectionType", "")
      else none }

def nonIdemRoot : List FileEntry := [⟨"hC", "C", 0, 0⟩, ⟨"hP", "P", 0, 0⟩]

/-- Starting state for the idempotence counterexample: `C` is already known
with a matching metadata hash, `P` is not known yet. -/
def nonIdemState : SyncState :=
  { document_collections := [("C", fixColl "C" "P" "mC")], documents := [] }

/-- A files environment with no cache directory and a blank 200 response. -/
def noCacheEnv : FilesEnv :=
  { sync_file_path := none, cacheFile := fun _ => none,
    parseJson := fun _ => none, response := fun _ _ => ⟨200, "", none⟩ }

/-- A files environment whose remote always answers 200 with the
invalid-hash body. -/
def invalidHashEnv : FilesEnv :=
  { sync_file_path := none, cacheFile := fun _ => none,
    parseJson := fun _ => none,
    response := fun _ _ => ⟨200, invalidHashBody, none⟩ }

/-- The two constituents of the hash-order failing input, listed in
non-uuid-sorted order. -/
def hashOrderItem1 : FileEntry := ⟨"bb", "doc.rm", 0, 0⟩
def hashOrderItem2 : FileEntry := ⟨"aa", "doc.content", 0, 0⟩

/-! Upload-pipeline fixtures. -/

def st6 : RetryStrategy :=
  { total := 2, backoff_factor := 1, status_forcelist := [503] }

/-- A transport that answers 503 (retry-eligible) forever. -/
def failing503 : Nat → AttemptOutcome :=
  fun _ => .resp { status := 503, headers := fun _ => none, body := "" }

def env6 : Nat → UploadRound :=
  fun _ => { primary := failing503, google := failing503 }

def api6 : ApiConfig :=
  { document_storage_uri := "https://doc.store/", session_headers := [],
    retry_strategy := st6 }

def file6 : UploadFile :=
  { hash := "abc", rm_filename := "f.pdf", uuid := "u6" }

def expiredBody : String := "<Error><Code>ExpiredToken</Code></Error>"

def okResponse : UploadResponse :=
  { status := 200, headers := fun _ => none, body := "" }

def expiredResponse : UploadResponse :=
  { status := 400, headers := fun _ => none, body := expiredBody }

/-- Round 0 ends in a 400 expired-token response; round 1 succeeds. -/
def env7 : Nat → UploadRound :=
  fun r =>
    if r = 0 then
      { primary := fun _ => .resp expiredResponse,
        google := fun _ => .resp okResponse }
    else
      { primary := fun _ => .resp okResponse,
        google := fun _ => .resp okResponse }

def redirect302 : UploadResponse :=
  { status := 302,
    headers := fun k =>
      if k = "location" then some "https://storage.google/signed"
      else if k = "x-goog-content-length-range" then some "0,100"
      else none,
    body := "" }

/-- The primary endpoint redirects (302), the signed url accepts (200). -/
def env8 : Nat → UploadRound :=
  fun _ => { primary := fun _ => .resp redirect302,
             google := fun _ => .resp okResponse }

/-- A transport outcome the retry loop reacts to by retrying: a response
whose status is in the forcelist, or a timeout. -/
def retryEligible (st : RetryStrategy) : AttemptOutcome → Prop
  | .resp r => r.status ∈ st.status_forcelist
  | .timeoutErr => True

/-- The retry-policy contract of a loop result `F` starting at attempt `a`
with `f` budget: at least one and at most `f` attempts; one rewind per
retried attempt; sleeps follow `backoff * 2 ^ (retry - 1)`; every non-final
attempt was retry-eligible; and an error is re-raised only on a final,
retry-eligible attempt after the whole budget `f` was used. -/
def FetchResultSpec (attempts : Nat → AttemptOutcome) (st : RetryStrategy)
    (a f : Nat) (F : FetchResult) : Prop :=
  1 ≤ F.requests
  ∧ F.requests ≤ f
  ∧ F.resets = F.requests - 1
  ∧ F.sleeps = (List.range (F.requests - 1)).map
      (fun k => st.backoff_factor * 2 ^ (a + k))
  ∧ (∀ k, k + 1 < F.requests → retryEligible st (attempts (a + k)))
  ∧ (∀ e, F.result = .error e →
      retryEligible st (attempts (a + (F.requests - 1))) ∧ F.requests = f)

def FetchSpec (attempts : Nat → AttemptOutcome) (st : RetryStrategy)
    (a f : Nat) : Prop :=
  FetchResultSpec attempts st a f (fetchGo attempts st a f)

/-! ## Analysis devices for the tree resolver

These definitions are not part of the embedding; they name the observable
behavior of one inner loop so the idempotence analysis can speak about it. -/

/-- Walk the (sorted) item list exactly as the inner loop does up to the
first `.metadata` item: track the running `.content` value, abort (`none`) on
a content fetch failure or non-dict content, and return the `.metadata` item
together with the content accumulated so far. -/
def walkToMetadata (env : SyncRemote) (fuuid : String) :
    List FileEntry → Option JsonVal → Option (FileEntry × Option JsonVal)
  | [], _ => none
  | item :: rest, content =>
      if item.uuid = fuuid ++ ".content" then
        match env.contentOf item.hash with
        | none => none
        | some v =>
            if v.isObj then walkToMetadata env fuuid rest (some v) else none
      else if item.uuid = fuuid ++ ".metadata" then some (item, content)
      else walkToMetadata env fuuid rest content

/-- The `.metadata` item (and content) the processing of one top-level entry
reaches, if any. -/
def reachableMetadata (env : SyncRemote) (f : FileEntry) :
    Option (FileEntry × Option JsonVal) :=
  walkToMetadata env f.uuid
    (sortByKey intLe get_file_item_order (env.index f.hash)) none

/-- Processing this entry can never create or replace a record nor remove a
delete candidate: the walk aborts, the metadata blob fails to parse, or its
type is unknown. -/
def Stuck (env : SyncRemote) (f : FileEntry) : Prop :=
  match reachableMetadata env f with
  | none => True
  | some (item, _) =>
      match env.metadataOf item.hash with
      | none => True
      | some md => ¬ md.1 = "CollectionType" ∧ ¬ md.1 = "DocumentType"

/-- A stored collection is settled when some root entry for its uuid reaches
a `.metadata` item carrying exactly its stored metadata hash (so a re-run
takes the fast path). -/
def SettledColl (env : SyncRemote) (files : List FileEntry) (u : String)
    (c : DocumentCollection) : Prop :=
  ∃ f ∈ files, f.uuid = u ∧ ∃ item cnt,
    reachableMetadata env f = some (item, cnt) ∧ item.hash = c.metadata.hash

def SettledDoc (env : SyncRemote) (files : List FileEntry) (u : String)
    (d : Document) : Prop :=
  ∃ f ∈ files, f.uuid = u ∧ ∃ item cnt,
    reachableMetadata env f = some (item, cnt) ∧ item.hash = d.metadata.hash

/-- The state a sync run leaves behind: every stored collection fast-paths on
a re-run; every stored document either fast-paths, is shadowed by a stored
collection (then it must be provisioned), or is a provisioned leftover whose
entries are all stuck; and a root entry bound in neither map is stuck. -/
def SettledState (env : SyncRemote) (files : List FileEntry) (t : SyncState) :
    Prop :=
  (∀ u c, alGet t.document_collections u = some c → SettledColl env files u c)
  ∧ (∀ u d, alGet t.documents u = some d →
      alGet t.document_collections u = none →
      SettledDoc env files u d
      ∨ (d.provision = true ∧ ∀ f ∈ files, f.uuid = u → Stuck env f))
  ∧ (∀ u d, alGet t.documents u = some d →
      (∃ c, alGet t.document_collections u = some c) → d.provision = true)
  ∧ (∀ f ∈ files, alGet t.document_collections f.uuid = none →
      alGet t.documents f.uuid = none → Stuck env f)

/-- A collection record up to its derived `has_items` flag. -/
def collCore (c : DocumentCollection) : String × Metadata × List JsonVal :=
  (c.uuid, c.metadata, c.tags)

/-- Equality of collection maps up to `has_items`. -/
def collsCoreEq (m1 m2 : List (String × DocumentCollection)) : Prop :=
  m1.map (fun p => (p.1, collCore p.2)) = m2.map (fun p => (p.1, collCore p.2))

/-- No item in the list is named like this entry's `.content` or `.metadata`
part. -/
def noMetaNames (fid : String) (items : List FileEntry) : Prop :=
  ∀ j ∈ items, ¬ j.uuid = fid ++ ".metadata" ∧ ¬ j.uuid = fid ++ ".content"

/-- After the first `.metadata`-named item nothing relevant follows (the
shape the extension sort and id-uniqueness guarantee). -/
def OnceMeta (fid : String) : List FileEntry → Prop
  | [] => True
  | item :: rest =>
      (item.uuid = fid ++ ".metadata" → noMetaNames fid rest) ∧ OnceMeta fid rest

/-- The phase-A invariant behind settledness: candidate lists stay
duplicate-free; a binding no longer marked for deletion is settled on the
entries processed so far; a binding can only lose its candidate mark through
some processed entry of its uuid; a collection-actioned uuid keeps any
coexisting document a delete candidate; and every processed entry is stuck or
left an actioned binding behind. -/
def InvA (env : SyncRemote) (processed : List FileEntry) (ls : LoopState) :
    Prop :=
  ls.delColls.Nodup
  ∧ ls.delDocs.Nodup
  ∧ (∀ u c, alGet ls.colls u = some c → u ∉ ls.delColls →
      SettledColl env processed u c)
  ∧ (∀ u d, alGet ls.docs u = some d → u ∉ ls.delDocs →
      SettledDoc env processed u d)
  ∧ (∀ u, ¬ alGet ls.colls u = none → u ∉ ls.delColls →
      ∃ f ∈ processed, f.uuid = u)
  ∧ (∀ u, ¬ alGet ls.docs u = none → u ∉ ls.delDocs →
      ∃ f ∈ processed, f.uuid = u)
  ∧ (∀ u, ¬ alGet ls.colls u = none → u ∉ ls.delColls →
      ¬ alGet ls.docs u = none → u ∈ ls.delDocs)
  ∧ (∀ f ∈ processed, Stuck env f
      ∨ (f.uuid ∉ ls.delColls ∧ ¬ alGet ls.colls f.uuid = none)
      ∨ (f.uuid ∉ ls.delDocs ∧ ¬ alGet ls.docs f.uuid = none))

/-- The invariant of a re-run from a settled state `t`: the collection map
keeps `t`'s core, the document map is untouched, the candidate lists stay
duplicate-free, every surviving collection candidate is still bound in `t`,
and every `t`-binding that must lose its candidate mark either already has or
still awaits its root entry in `todo`. -/
def InvB (t : SyncState) (todo : List FileEntry) (ls : LoopState) : Prop :=
  collsCoreEq ls.colls t.document_collections
  ∧ ls.docs = t.documents
  ∧ ls.delColls.Nodup
  ∧ ls.delDocs.Nodup
  ∧ (∀ u ∈ ls.delColls, ¬ alGet t.document_collections u = none)
  ∧ (∀ u c, alGet t.document_collections u = some c →
      (∃ f ∈ todo, f.uuid = u) ∨ u ∉ ls.delColls)
  ∧ (∀ u d, alGet t.documents u = some d → d.provision = false →
      (∃ f ∈ todo, f.uuid = u) ∨ u ∉ ls.delDocs)

/-! # Theorems -/

/-! ## C9 — a 400 response raises `NewSyncRequired` -/

/-- C9: for every storage request, a response with HTTP status 400 raises
the distinguishable `NewSyncRequired` error instead of returning a value, so
the caller can fall back to the alternate sync protocol. -/
theorem C9_status400_raises_newSyncRequired (u : Bool) (resp : HttpResponse)
    (h : resp.status_code = 400) :
    (make_storage_request u resp).result = .error .newSyncRequired := by
  simp [make_storage_request, h]

/-- Witness for C9 at a concrete 400 response. -/
theorem C9_witness :
    (⟨400, "", none⟩ : HttpResponse).status_code = 400 ∧
    (make_storage_request false ⟨400, "", none⟩).result = .error .newSyncRequired :=
  ⟨rfl, C9_status400_raises_newSyncRequired false ⟨400, "", none⟩ rfl⟩

/-! ## C4 — `enforce_cache` on a cache miss: `None`, no network -/

/-- C4: for every key, a files request with `enforce_cache` set returns the
not-found sentinel `None` without any network request (and without raising)
when no local cache entry exists at that key. -/
theorem C4_enforce_cache_miss (env : FilesEnv) (method file : String)
    (binary use_cache : Bool) (h : cacheLookup env file = none) :
    (make_files_request env method file binary use_cache true).result = .ok .noneV ∧
    (make_files_request env method file binary use_cache true).networkUsed = false := by
  cases use_cache <;> simp [make_files_request, h]

/-- Witness for C4: no cache directory configured, key `k`. -/
theorem C4_witness :
    cacheLookup noCacheEnv "k" = none ∧
    (make_files_request noCacheEnv "GET" "k" false true true).result = .ok .noneV ∧
    (make_files_request noCacheEnv "GET" "k" false true true).networkUsed = false :=
  ⟨rfl, C4_enforce_cache_miss noCacheEnv "GET" "k" false true rfl⟩

/-! ## C10 — the invalid-hash body yields `None` -/

/-- C10 counterexample: the claim quantifies over "every flag combination",
but for a `HEAD` probe (which the function converts to a streamed `GET`) a
status of 302/404/200 short-circuits into a boolean *before* the body check:
with status 200 and the invalid-hash body the result is `True`, not the
not-found sentinel `None`. -/
theorem C10_counterexample :
    (invalidHashEnv.response "GET" "k").text = invalidHashBody ∧
    (make_files_request invalidHashEnv "HEAD" "k" false true false).result
      = .ok (.boolV true) ∧
    Except.ok (FilesResult.boolV true) ≠
      (Except.ok FilesResult.noneV : Except FilesError FilesResult) := by
  refine ⟨rfl, rfl, fun h => ?_⟩
  injection h with h2
  exact FilesResult.noConfusion h2

/-- C10 (amended): whenever the request actually reaches the network (cache
miss or caching disabled, `enforce_cache` unset) and the `HEAD` status
short-circuit does not apply, a response body of exactly
`\x7b"message":"invalid hash"\x7d\n` makes `make_files_request` return `None`
regardless of the HTTP status, taking precedence over the non-OK failure
exception. -/
theorem C10_invalid_hash_returns_none (env : FilesEnv) (method file : String)
    (binary use_cache : Bool)
    (hc : use_cache = false ∨ cacheLookup env file = none)
    (hh : ¬ (method = "HEAD" ∧
      ((env.response (if method = "HEAD" then "GET" else method) file).status_code = 302 ∨
       (env.response (if method = "HEAD" then "GET" else method) file).status_code = 404 ∨
       (env.response (if method = "HEAD" then "GET" else method) file).status_code = 200)))
    (hbody : (env.response (if method = "HEAD" then "GET" else method) file).text
      = invalidHashBody) :
    (make_files_request env method file binary use_cache false).result = .ok .noneV := by
  rcases hc with hc | hc
  · subst hc
    simp only [make_files_request]
    rw [if_neg hh, if_pos hbody]
    simp
  · cases use_cache <;>
      · simp only [make_files_request, hc]
        rw [if_neg hh, if_pos hbody]
        simp

/-- Witness for C10's amended statement: a plain `GET` against the
invalid-hash remote. -/
theorem C10_witness :
    (invalidHashEnv.response "GET" "k").text = invalidHashBody ∧
    (make_files_request invalidHashEnv "GET" "k" false true false).result
      = .ok .noneV :=
  ⟨rfl, C10_invalid_hash_returns_none invalidHashEnv "GET" "k" false true
    (Or.inr rfl) (fun h => by exact absurd h.1 (by decide)) rfl⟩

/-! ## C2 — the content hash check's ordering -/

set_option maxRecDepth 8192 in
/-- C2: the source's `sorted(file_content, key=lambda item: file.uuid)` sorts
by the *outer* document's uuid — a constant — so the recomputed digest runs
over the constituent hashes in their original index order, not in uuid-sorted
order of the constituents: the first conjunct characterizes the code, the
rest exhibits a concrete file set on which the code's digest differs from the
uuid-sorted digest the claim (and spec §3) describes. -/
theorem C2_hash_order_divergence :
    (∀ (u : String) (l : List FileEntry),
      documentExpectedHash u l
        = sha256hex ((l.map (fun item => bytesFromHex item.hash)).flatten)) ∧
    documentExpectedHash "doc" [hashOrderItem1, hashOrderItem2]
      = sha256hex (bytesFromHex "bb" ++ bytesFromHex "aa") ∧
    specDocumentExpectedHash [hashOrderItem1, hashOrderItem2]
      = sha256hex (bytesFromHex "aa" ++ bytesFromHex "bb") ∧
    documentExpectedHash "doc" [hashOrderItem1, hashOrderItem2]
      ≠ specDocumentExpectedHash [hashOrderItem1, hashOrderItem2] := by
  refine ⟨fun u l => ?_, by decide, by decide, by decide⟩
  unfold documentExpectedHash
  rw [sortByKey_const strLe u (strLe_refl u)]

/-! ## C1 — the shape of the progress trace -/

theorem phaseA_trace (env : SyncRemote) (total : Nat) :
    ∀ (files : List FileEntry) (i : Nat) (ls : LoopState),
      (phaseA env total files i ls).2
        = (List.range files.length).map (fun k => (i + 1 + k, total))
  | [], _, _ => rfl
  | f :: rest, i, ls => by
      have ih := phaseA_trace env total rest (i + 1) (processFile env f ls)
      simp only [phaseA, ih, List.length_cons, List.range_succ_eq_map,
        List.map_cons, List.map_map]
      refine congrArg₂ List.cons (by simp) ?_
      refine List.map_congr_left (fun a _ => ?_)
      simp only [Function.comp_apply, Prod.mk.injEq, and_true]
      omega

/-- C1 counterexample: with one top-level file (`N = 1`) and one stale local
collection (`D = 1`), the trace is `[(1, 1), (1, 2)]`: the first call's total
is `N`, not `N + D`; the final call reports `done = 1 ≠ 2 = total`; so the
claimed contract (total fixed at `N + D`, one call per unit, monotone,
finishing at `done = total`) fails. -/
theorem C1_counterexample :
    (get_documents_using_root emptyRemote oneEntryRoot oneStaleCollState).progress
      = [(1, 1), (1, 2)] ∧
    oneEntryRoot.length = 1 ∧
    oneStaleCollState.document_collections.length
      + oneStaleCollState.documents.length = 1 ∧
    ¬ claimedProgressContract 1 1 [(1, 1), (1, 2)] :=
  ⟨rfl, rfl, rfl, by decide⟩

/-- C1 (amended): the callback is still invoked once per unit of work (each
top-level file, then each deletion), but the file loop reports against
`total = N` only; the deletion total `N + D` counts the candidates *left
over* after the file loop; and because the source's `for/else` clauses always
reset `i` (and `j`) to 0, each deletion loop restarts `done` from 1, so the
trace is not monotone and does not end at `done = total` whenever documents
(or, absent those, collections) were deleted. -/
theorem C1_progress_shape (env : SyncRemote) (files : List FileEntry)
    (s : SyncState) :
    (get_documents_using_root env files s).progress
      = (List.range files.length).map (fun i => (i + 1, files.length))
        ++ (List.range
            (phaseA env files.length files 0 (initLoopState s)).1.delColls.length).map
            (fun j => (j + 1, files.length
              + (phaseA env files.length files 0 (initLoopState s)).1.delColls.length
              + (phaseA env files.length files 0 (initLoopState s)).1.delDocs.length))
        ++ (List.range
            (phaseA env files.length files 0 (initLoopState s)).1.delDocs.length).map
            (fun k => (k + 1, files.length
              + (phaseA env files.length files 0 (initLoopState s)).1.delColls.length
              + (phaseA env files.length files 0 (initLoopState s)).1.delDocs.length)) := by
  simp only [get_documents_using_root, phaseA_trace]
  congr 1
  congr 1
  refine List.map_congr_left (fun a _ => ?_)
  simp only [Prod.mk.injEq, and_true]
  omega

/-! ## Association-list lemmas -/

section AssocLemmas

variable {α : Type}

theorem alGet_nil (k : String) : alGet ([] : List (String × α)) k = none := rfl

theorem alGet_cons (p : String × α) (m : List (String × α)) (k : String) :
    alGet (p :: m) k = if p.1 = k then some p.2 else alGet m k := by
  by_cases hp : p.1 = k <;> simp [alGet, List.find?, hp]

theorem alDel_cons (p : String × α) (m : List (String × α)) (k : String) :
    alDel (p :: m) k = if p.1 = k then alDel m k else p :: alDel m k := by
  by_cases hp : p.1 = k <;> simp [alDel, List.filter_cons, hp]

theorem alModify_cons (p : String × α) (m : List (String × α)) (k : String)
    (f : α → α) :
    alModify (p :: m) k f
      = (if p.1 = k then (p.1, f p.2) else p) :: alModify m k f := by
  simp [alModify]

theorem alGet_replace_self (m : List (String × α)) (k : String) (v : α)
    (h : m.any (fun p => p.1 = k) = true) :
    alGet (m.map (fun p => if p.1 = k then (k, v) else p)) k = some v := by
  induction m with
  | nil => simp at h
  | cons p ps ih =>
      by_cases hp : p.1 = k
      · simp [alGet_cons, hp]
      · simp only [List.any_cons, Bool.or_eq_true, decide_eq_true_eq] at h
        rcases h with h | h
        · exact absurd h hp
        · simp only [List.map_cons, if_neg hp, alGet_cons, hp, if_false]
          exact ih (by simpa using h)

theorem alGet_append_self (m : List (String × α)) (k : String) (v : α)
    (h : ∀ p ∈ m, ¬ p.1 = k) : alGet (m ++ [(k, v)]) k = some v := by
  induction m with
  | nil => simp [alGet_cons]
  | cons p ps ih =>
      have h1 : ¬ p.1 = k := h p (by simp)
      simp only [List.cons_append, alGet_cons, h1, if_false]
      exact ih (fun q hq => h q (by simp [hq]))

theorem alGet_set_self (m : List (String × α)) (k : String) (v : α) :
    alGet (alSet m k v) k = some v := by
  unfold alSet
  split
  case isTrue h => exact alGet_replace_self m k v h
  case isFalse h =>
      refine alGet_append_self m k v (fun p hp => ?_)
      intro hk
      exact h (List.any_eq_true.2 ⟨p, hp, by simp [hk]⟩)

theorem alGet_replace_ne (m : List (String × α)) (k : String) (v : α)
    (k' : String) (h : k' ≠ k) :
    alGet (m.map (fun p => if p.1 = k then (k, v) else p)) k' = alGet m k' := by
  have hk : ¬ k = k' := fun hh => h hh.symm
  induction m with
  | nil => rfl
  | cons p ps ih =>
      by_cases hp : p.1 = k
      · have hp' : ¬ p.1 = k' := by rw [hp]; exact hk
        simp [List.map_cons, hp, alGet_cons, hk, hp', ih]
      · simp [List.map_cons, hp, alGet_cons, ih]

theorem alGet_append_ne (m : List (String × α)) (k : String) (v : α)
    (k' : String) (h : k' ≠ k) : alGet (m ++ [(k, v)]) k' = alGet m k' := by
  have hk : ¬ k = k' := fun hh => h hh.symm
  induction m with
  | nil => simp [alGet_cons, alGet_nil, hk]
  | cons p ps ih => simp only [List.cons_append, alGet_cons, ih]

theorem alGet_set_ne (m : List (String × α)) (k : String) (v : α)
    (k' : String) (h : k' ≠ k) : alGet (alSet m k v) k' = alGet m k' := by
  unfold alSet
  split
  · exact alGet_replace_ne m k v k' h
  · exact alGet_append_ne m k v k' h

theorem alGet_del_self (m : List (String × α)) (k : String) :
    alGet (alDel m k) k = none := by
  induction m with
  | nil => rfl
  | cons p ps ih =>
      rw [alDel_cons]
      by_cases hp : p.1 = k
      · simp [hp, ih]
      · simp [hp, alGet_cons, ih]

theorem alGet_del_ne (m : List (String × α)) (k k' : String) (h : k' ≠ k) :
    alGet (alDel m k) k' = alGet m k' := by
  induction m with
  | nil => rfl
  | cons p ps ih =>
      rw [alDel_cons]
      have hk : ¬ k = k' := fun hh => h hh.symm
      by_cases hp : p.1 = k
      · have hp' : ¬ p.1 = k' := by rw [hp]; exact hk
        simp [hp, hp', hk, ih, alGet_cons]
      · simp [hp, alGet_cons, ih]

theorem alGet_modify_ne (m : List (String × α)) (k : String) (f : α → α)
    (k' : String) (h : k' ≠ k) : alGet (alModify m k f) k' = alGet m k' := by
  induction m with
  | nil => rfl
  | cons p ps ih =>
      rw [alModify_cons]
      have hk : ¬ k = k' := fun hh => h hh.symm
      by_cases hp : p.1 = k
      · have hp' : ¬ p.1 = k' := by rw [hp]; exact hk
        simp [hp, hp', hk, ih, alGet_cons]
      · simp [hp, alGet_cons, ih]

theorem alGet_modify_self (m : List (String × α)) (k : String) (f : α → α) :
    alGet (alModify m k f) k = (alGet m k).map f := by
  induction m with
  | nil => rfl
  | cons p ps ih =>
      rw [alModify_cons]
      by_cases hp : p.1 = k
      · simp [hp, alGet_cons]
      · simp [hp, alGet_cons, ih]

theorem alGet_mem_keys (m : List (String × α)) (k : String) (v : α)
    (h : alGet m k = some v) : k ∈ m.map (fun p => p.1) := by
  induction m with
  | nil => simp [alGet] at h
  | cons p ps ih =>
      rw [alGet_cons] at h
      by_cases hp : p.1 = k
      · simp [hp]
      · simp only [hp, if_false] at h
        simp [ih h]

theorem keys_modify (m : List (String × α)) (k : String) (f : α → α) :
    (alModify m k f).map (fun p => p.1) = m.map (fun p => p.1) := by
  induction m with
  | nil => rfl
  | cons p ps ih =>
      rw [alModify_cons]
      by_cases hp : p.1 = k <;> simp [hp, ih]

end AssocLemmas

/-! ## C5 — reconciliation deletes exactly the vanished uuids (modulo
provision) -/

/-- Facts preserved at a key `u` different from the processed entry's uuid:
the document binding, and membership in both delete-candidate sets. -/
def PreservedAt (u : String) (ls ls' : LoopState) : Prop :=
  alGet ls'.docs u = alGet ls.docs u
  ∧ (u ∈ ls'.delColls ↔ u ∈ ls.delColls)
  ∧ (u ∈ ls'.delDocs ↔ u ∈ ls.delDocs)

theorem preservedAt_refl (u : String) (ls : LoopState) : PreservedAt u ls ls :=
  ⟨rfl, Iff.rfl, Iff.rfl⟩

theorem preservedAt_trans {u : String} {a b c : LoopState}
    (h1 : PreservedAt u a b) (h2 : PreservedAt u b c) : PreservedAt u a c :=
  ⟨h2.1.trans h1.1, h2.2.1.trans h1.2.1, h2.2.2.trans h1.2.2⟩

theorem collFastPath_preservedAt (fid : String) (c : DocumentCollection)
    (ls : LoopState) (u : String) (h : u ≠ fid) :
    PreservedAt u ls (collFastPath fid c ls) :=
  ⟨rfl, List.mem_erase_of_ne h, Iff.rfl⟩

theorem docFastPath_preservedAt (fid : String) (d : Document) (ls : LoopState)
    (u : String) (h : u ≠ fid) : PreservedAt u ls (docFastPath fid d ls) := by
  unfold docFastPath
  exact ⟨rfl, Iff.rfl, List.mem_erase_of_ne h⟩

theorem createColl_preservedAt (fid : String) (md : Metadata)
    (content : Option JsonVal) (ls : LoopState) (u : String) (h : u ≠ fid) :
    PreservedAt u ls (createColl fid md content ls) := by
  unfold createColl
  exact ⟨rfl, List.mem_erase_of_ne h, Iff.rfl⟩

theorem createDoc_preservedAt (fid : String) (md : Metadata)
    (content : Option JsonVal) (chash : String) (fc : List FileEntry)
    (mh : Bool) (ls : LoopState) (u : String) (h : u ≠ fid) :
    PreservedAt u ls (createDoc fid md content chash fc mh ls) := by
  unfold createDoc
  refine ⟨?_, Iff.rfl, List.mem_erase_of_ne h⟩
  exact alGet_set_ne ls.docs fid _ u h

theorem parseMetadataPath_preservedAt (env : SyncRemote) (fid : String)
    (sfc : List FileEntry) (mh : Bool) (item : FileEntry)
    (content : Option JsonVal) (ls : LoopState) (u : String) (h : u ≠ fid) :
    PreservedAt u ls (parseMetadataPath env fid sfc mh item content ls) := by
  unfold parseMetadataPath
  split
  · exact preservedAt_refl u ls
  · dsimp only
    split
    · exact createColl_preservedAt fid _ content ls u h
    · split
      · exact createDoc_preservedAt fid _ content _ sfc mh ls u h
      · exact preservedAt_refl u ls

theorem applyMetadataItem_preservedAt (env : SyncRemote) (fid : String)
    (sfc : List FileEntry) (mh : Bool) (item : FileEntry)
    (content : Option JsonVal) (ls : LoopState) (u : String) (h : u ≠ fid) :
    PreservedAt u ls (applyMetadataItem env fid sfc mh item content ls) := by
  unfold applyMetadataItem
  split
  case h_1 oldColl heq =>
    split
    · exact collFastPath_preservedAt fid oldColl ls u h
    · exact parseMetadataPath_preservedAt env fid sfc mh item content ls u h
  case h_2 heq =>
    split
    case h_1 oldDoc heqd =>
      split
      · exact docFastPath_preservedAt fid oldDoc ls u h
      · exact parseMetadataPath_preservedAt env fid sfc mh item content ls u h
    case h_2 heqd =>
      exact parseMetadataPath_preservedAt env fid sfc mh item content ls u h

theorem processItems_preservedAt (env : SyncRemote) (fid : String)
    (sfc : List FileEntry) (mh : Bool) :
    ∀ (items : List FileEntry) (content : Option JsonVal) (ls : LoopState)
      (u : String), u ≠ fid →
      PreservedAt u ls (processItems env fid sfc mh items content ls)
  | [], _, ls, u, _ => preservedAt_refl u ls
  | item :: rest, content, ls, u, h => by
      rw [processItems]
      split
      · split
        · exact preservedAt_refl u ls
        · split
          · exact processItems_preservedAt env fid sfc mh rest _ ls u h
          · exact preservedAt_refl u ls
      · split
        · split
          · exact preservedAt_trans
              (applyMetadataItem_preservedAt env fid sfc mh item content ls u h)
              (processItems_preservedAt env fid sfc mh rest content _ u h)
          · exact applyMetadataItem_preservedAt env fid sfc mh item content ls u h
        · exact processItems_preservedAt env fid sfc mh rest content ls u h

theorem processFile_preservedAt (env : SyncRemote) (f : FileEntry)
    (ls : LoopState) (u : String) (h : u ≠ f.uuid) :
    PreservedAt u ls (processFile env f ls) := by
  unfold processFile
  exact processItems_preservedAt env f.uuid _ _ _ none ls u h

theorem phaseA_preservedAt (env : SyncRemote) (total : Nat) :
    ∀ (files : List FileEntry) (i : Nat) (ls : LoopState) (u : String),
      (∀ f ∈ files, u ≠ f.uuid) →
      PreservedAt u ls (phaseA env total files i ls).1
  | [], _, ls, u, _ => preservedAt_refl u ls
  | f :: rest, i, ls, u, h => by
      rw [phaseA]
      exact preservedAt_trans
        (processFile_preservedAt env f ls u (h f (by simp)))
        (phaseA_preservedAt env total rest (i + 1) (processFile env f ls) u
          (fun g hg => h g (by simp [hg])))

/-- The collection-deletion loop: a candidate uuid ends up unbound. -/
theorem collsDeleteFold_get :
    ∀ (l : List String) (m : List (String × DocumentCollection)) (u : String),
      alGet (l.foldl (fun m u => alDel m u) m) u
        = if u ∈ l then none else alGet m u
  | [], m, u => by simp
  | v :: rest, m, u => by
      rw [List.foldl_cons, collsDeleteFold_get rest (alDel m v) u]
      by_cases hv : u = v
      · subst hv
        by_cases hr : u ∈ rest <;> simp [hr, alGet_del_self]
      · rw [alGet_del_ne m v u hv]
        by_cases hr : u ∈ rest <;> simp [hr, hv]

/-- The document-deletion loop: a candidate binding survives exactly when the
document is provisioned. -/
theorem docsDeleteFold_get :
    ∀ (l : List String) (m : List (String × Document)) (u : String),
      alGet (l.foldl (fun m u =>
          match alGet m u with
          | some d => if d.provision then m else alDel m u
          | none => m) m) u
        = if u ∈ l then
            (match alGet m u with
             | some d => if d.provision then some d else none
             | none => none)
          else alGet m u
  | [], m, u => by simp
  | v :: rest, m, u => by
      rw [List.foldl_cons, docsDeleteFold_get rest _ u]
      by_cases hv : u = v
      · subst hv
        have hstep : alGet
            (match alGet m u with
             | some d => if d.provision then m else alDel m u
             | none => m) u
          = (match alGet m u with
             | some d => if d.provision then some d else none
             | none => none) := by
          rcases hm : alGet m u with _ | d
          · simp [hm]
          · by_cases hp : d.provision <;> simp [hm, hp, alGet_del_self]
        rw [hstep]
        by_cases hr : u ∈ rest
        · simp only [hr, if_true, List.mem_cons, true_or, if_pos]
          rcases hm : alGet m u with _ | d
          · rfl
          · by_cases hp : d.provision <;> simp [hp]
        · simp [hr]
      · have hstep : alGet
            (match alGet m v with
             | some d => if d.provision then m else alDel m v
             | none => m) u = alGet m u := by
          rcases hm : alGet m v with _ | d
          · rfl
          · by_cases hp : d.provision <;> simp [hp, alGet_del_ne m v u hv]
        rw [hstep]
        by_cases hr : u ∈ rest <;> simp [hr, hv]

/-- C5: after one sync, a uuid absent from the new root's file set is removed
from `document_collections` if it was there, and removed from `documents`
unless its document is provisioned, in which case its binding is retained
unchanged. -/
theorem C5_vanished_uuids_deleted (env : SyncRemote) (files : List FileEntry)
    (s : SyncState) (u : String) (hu : u ∉ files.map FileEntry.uuid) :
    (u ∈ s.document_collections.map (fun p => p.1) →
      alGet (get_documents_using_root env files s).state.document_collections u
        = none)
    ∧ (∀ d, alGet s.documents u = some d →
        alGet (get_documents_using_root env files s).state.documents u
          = if d.provision then some d else none) := by
  have hne : ∀ f ∈ files, u ≠ f.uuid := by
    intro f hf heq
    exact hu (by simpa [heq] using List.mem_map_of_mem FileEntry.uuid hf)
  have hpre := phaseA_preservedAt env files.length files 0 (initLoopState s) u hne
  obtain ⟨hdocs, hdelC, hdelD⟩ := hpre
  constructor
  · intro hmem
    simp only [get_documents_using_root]
    rw [collsDeleteFold_get]
    rw [if_pos (hdelC.2 (by simpa [initLoopState] using hmem))]
  · intro d hd
    simp only [get_documents_using_root]
    rw [docsDeleteFold_get]
    have hmem : u ∈ (initLoopState s).delDocs := by
      simpa [initLoopState] using alGet_mem_keys s.documents u d hd
    rw [if_pos (hdelD.2 hmem)]
    rw [hdocs, show alGet (initLoopState s).docs u = some d from hd]

/-- Witness for C5 at a concrete state: the unprovisioned document `q` and
the collection `c` vanish, while the provisioned document `p` would be
retained (instantiated here at `q`). -/
theorem C5_witness :
    ("q" ∉ oneEntryRoot.map FileEntry.uuid) ∧
    alGet staleMixedState.documents "q" = some (fixDoc "q" "hq" false) ∧
    alGet (get_documents_using_root emptyRemote oneEntryRoot
        staleMixedState).state.documents "q"
      = (if (fixDoc "q" "hq" false).provision
          then some (fixDoc "q" "hq" false) else none) :=
  ⟨by decide, rfl,
    (C5_vanished_uuids_deleted emptyRemote oneEntryRoot staleMixedState "q"
      (by decide)).2 (fixDoc "q" "hq" false) rfl⟩

/-! ## C6 — the retry policy -/

theorem retryStep_spec (attempts : Nat → AttemptOutcome) (st : RetryStrategy)
    (a f' : Nat) (e : FetchError) (hsum : a + (f' + 1) = st.total)
    (helig : retryEligible st (attempts a))
    (ih : 0 < f' → FetchSpec attempts st (a + 1) f') :
    FetchResultSpec attempts st a (f' + 1)
      (retryStep st (a + 1) e (fetchGo attempts st (a + 1) f')) := by
  unfold retryStep
  by_cases hlt : a + 1 < st.total
  · rw [if_pos hlt]
    have hf' : 0 < f' := by omega
    obtain ⟨ih1, ih2, ih3, ih4, ih5, ih6⟩ := ih hf'
    unfold FetchResultSpec
    dsimp only
    refine ⟨by omega, by omega, by omega, ?_, ?_, ?_⟩
    · rw [ih4]
      obtain ⟨n, hn⟩ : ∃ n, (fetchGo attempts st (a + 1) f').requests = n + 1 :=
        ⟨(fetchGo attempts st (a + 1) f').requests - 1, by omega⟩
      rw [hn]
      rw [show 1 + (n + 1) - 1 = n + 1 from by omega,
        show n + 1 - 1 = n from by omega]
      rw [List.range_succ_eq_map, List.map_cons, List.map_map]
      refine congrArg₂ List.cons (by rw [show a + 1 - 1 = a + 0 from by omega]) ?_
      refine List.map_congr_left (fun k _ => ?_)
      simp only [Function.comp_apply]
      rw [show a + 1 + k = a + (k + 1) from by omega]
    · intro k hk
      match k with
      | 0 => simpa using helig
      | k' + 1 =>
          have hk' : k' + 1 < (fetchGo attempts st (a + 1) f').requests := by omega
          have := ih5 k' hk'
          rw [show a + (k' + 1) = a + 1 + k' from by omega]
          exact this
    · intro e' he'
      obtain ⟨h1, h2⟩ := ih6 e' he'
      constructor
      · rw [show a + (1 + (fetchGo attempts st (a + 1) f').requests - 1)
            = a + 1 + ((fetchGo attempts st (a + 1) f').requests - 1) from by omega]
        exact h1
      · omega
  · rw [if_neg hlt]
    unfold FetchResultSpec
    dsimp only
    refine ⟨le_refl 1, by omega, rfl, by simp, fun k hk => by omega, ?_⟩
    intro e' _
    exact ⟨by simpa using helig, by omega⟩

theorem fetchGo_spec (attempts : Nat → AttemptOutcome) (st : RetryStrategy) :
    ∀ (f a : Nat), a + f = st.total → 0 < f → FetchSpec attempts st a f
  | 0, _, _, h0 => absurd h0 (by omega)
  | f' + 1, a, hsum, _ => by
      have ih : 0 < f' → FetchSpec attempts st (a + 1) f' :=
        fun hf' => fetchGo_spec attempts st f' (a + 1) (by omega) hf'
      unfold FetchSpec
      rcases hA : attempts a with r | _
      · by_cases hS : r.status ∈ st.status_forcelist
        · have heq : fetchGo attempts st a (f' + 1)
              = retryStep st (a + 1) (.clientResponseError r.status)
                  (fetchGo attempts st (a + 1) f') := by
            rw [fetchGo, hA]
            dsimp only
            rw [if_pos hS]
          rw [heq]
          exact retryStep_spec attempts st a f' _ hsum (by rw [hA]; exact hS) ih
        · have heq : fetchGo attempts st a (f' + 1)
              = { result := .ok (some r), requests := 1, resets := 0,
                  sleeps := [] } := by
            rw [fetchGo, hA]
            dsimp only
            rw [if_neg hS]
          rw [heq]
          unfold FetchResultSpec
          dsimp only
          refine ⟨le_refl 1, by omega, rfl, by simp, fun k hk => by omega, ?_⟩
          intro e he
          simp at he
      · have heq : fetchGo attempts st a (f' + 1)
            = retryStep st (a + 1) .timeoutError
                (fetchGo attempts st (a + 1) f') := by
          rw [fetchGo, hA]
        rw [heq]
        exact retryStep_spec attempts st a f' _ hsum (by rw [hA]; trivial) ih

/-- C6 counterexample: exhausting the retry budget re-raises the transport
error out of `fetch_with_retries`, but `put_file_async` catches it with a
bare `except` and returns `False` — no error reaches the caller of the
upload (an escaping exception would be the `pythonError` outcome). -/
theorem C6_counterexample :
    (fetch_with_retries failing503 st6).result
      = .error (.clientResponseError 503)
    ∧ (put_file_async env6 api6 file6 [] 1 0).outcome = .ok false
    ∧ PutOutcome.ok false ≠ PutOutcome.pythonError :=
  ⟨rfl, rfl, fun h => PutOutcome.noConfusion h⟩

/-- C6 (amended): each HTTP attempt inside the pipeline is retried at most
`total` times with backoff `backoff_factor * 2 ^ (attempt - 1)`, the adapter
is rewound before every retried attempt, retries happen only on forcelist
statuses or timeouts, and an exhausted budget re-raises the transport error
to the upload pipeline, which catches it and makes `upload` return `False`
(rather than re-raising to the caller of `upload`). -/
theorem C6_retry_policy (attempts : Nat → AttemptOutcome) (st : RetryStrategy)
    (h : 0 < st.total) :
    FetchResultSpec attempts st 0 st.total (fetch_with_retries attempts st)
    ∧ (∀ (env : Nat → UploadRound) (api : ApiConfig) (file : UploadFile)
        (data : List Nat) (fuel round : Nat),
        (env round).primary = attempts → api.retry_strategy = st →
        ∀ e, (fetch_with_retries attempts st).result = .error e →
          (put_file_async env api file data fuel round).outcome = .ok false) := by
  constructor
  · exact fetchGo_spec attempts st st.total 0 (by omega) h
  · intro env api file data fuel round hprim hstrat e herr
    rw [put_file_async.eq_def]
    simp only [hprim, hstrat, herr]

/-- Witness for C6 at the always-503 transport with a 2-attempt budget. -/
theorem C6_witness :
    0 < st6.total
    ∧ (fetch_with_retries failing503 st6).requests ≤ st6.total
    ∧ (fetch_with_retries failing503 st6).resets
        = (fetch_with_retries failing503 st6).requests - 1
    ∧ (put_file_async env6 api6 file6 [] 1 0).outcome = .ok false :=
  ⟨by decide,
   (C6_retry_policy failing503 st6 (by decide)).1.2.1,
   (C6_retry_policy failing503 st6 (by decide)).1.2.2.1,
   (C6_retry_policy failing503 st6 (by decide)).2 env6 api6 file6 [] 1 0 rfl rfl
     (.clientResponseError 503) rfl⟩

/-! ## C7 — expired signed token: full self-retry -/

/-- C7: when the final response of a round is a 400 whose body signals an
expired signed token, the pipeline rewinds the stream once more, marks the
task finished, and re-runs the entire upload (checksum onward) as the next
round, returning that retry's result.  The first part covers a non-redirected
final response, the second the redirected (google) one. -/
theorem C7_expired_token_self_retry (env : Nat → UploadRound)
    (api : ApiConfig) (file : UploadFile) (data : List Nat)
    (fuel round : Nat) :
    (∀ resp,
      (fetch_with_retries (env round).primary api.retry_strategy).result
          = .ok (some resp) →
      resp.status = 400 →
      strContains "<Code>ExpiredToken</Code>" resp.body = true →
      (put_file_async env api file data (fuel + 1) round).outcome
          = (put_file_async env api file data fuel (round + 1)).outcome
        ∧ (put_file_async env api file data (fuel + 1) round).finishes
          = 1 + (put_file_async env api file data fuel (round + 1)).finishes
        ∧ (put_file_async env api file data (fuel + 1) round).resets
          = (fetch_with_retries (env round).primary api.retry_strategy).resets
            + 1 + (put_file_async env api file data fuel (round + 1)).resets)
    ∧ (∀ resp loc rng resp2,
      (fetch_with_retries (env round).primary api.retry_strategy).result
          = .ok (some resp) →
      resp.status = 302 →
      resp.headers "location" = some loc →
      resp.headers "x-goog-content-length-range" = some rng →
      (fetch_with_retries (env round).google api.retry_strategy).result
          = .ok (some resp2) →
      resp2.status = 400 →
      strContains "<Code>ExpiredToken</Code>" resp2.body = true →
      (put_file_async env api file data (fuel + 1) round).outcome
          = (put_file_async env api file data fuel (round + 1)).outcome
        ∧ (put_file_async env api file data (fuel + 1) round).finishes
          = 1 + (put_file_async env api file data fuel (round + 1)).finishes
        ∧ (put_file_async env api file data (fuel + 1) round).resets
          = (fetch_with_retries (env round).primary api.retry_strategy).resets
            + 1
            + (fetch_with_retries (env round).google api.retry_strategy).resets
            + 1 + (put_file_async env api file data fuel (round + 1)).resets) := by
  constructor
  · intro resp hok hst hbody
    have h302 : ¬ resp.status = 302 := by rw [hst]; decide
    have hred : put_file_async env api file data (fuel + 1) round
        = afterFinal (some (put_file_async env api file data fuel (round + 1)))
            data.length
            [{ url := api.document_storage_uri ++ "sync/v3/files/" ++ file.hash,
               headers := dictSet (dictSet (dictSet (dictSet api.session_headers
                   "content-length" (toString data.length))
                   "content-type" "application/octet-stream")
                   "rm-filename" file.rm_filename)
                   "x-goog-hash" ("crc32c=" ++
                     String.mk (b64encode (natToBytes4BE (crc32cOf data)))),
               fetch := fetch_with_retries (env round).primary
                 api.retry_strategy }]
            (fetch_with_retries (env round).primary api.retry_strategy).resets
            resp := by
      conv_lhs => rw [put_file_async.eq_def]
      simp only [hok]
      rw [if_neg h302]
    rw [hred]
    unfold afterFinal
    rw [hst, hbody]
    simp
  · intro resp loc rng resp2 hok hst hloc hrng hokg hst2 hbody2
    have hred : put_file_async env api file data (fuel + 1) round
        = afterFinal (some (put_file_async env api file data fuel (round + 1)))
            data.length
            [{ url := api.document_storage_uri ++ "sync/v3/files/" ++ file.hash,
               headers := dictSet (dictSet (dictSet (dictSet api.session_headers
                   "content-length" (toString data.length))
                   "content-type" "application/octet-stream")
                   "rm-filename" file.rm_filename)
                   "x-goog-hash" ("crc32c=" ++
                     String.mk (b64encode (natToBytes4BE (crc32cOf data)))),
               fetch := fetch_with_retries (env round).primary
                 api.retry_strategy },
             { url := loc,
               headers := dictSet (dictSet (dictSet (dictSet (dictSet
                   (dictSet api.session_headers
                   "content-length" (toString data.length))
                   "content-type" "application/octet-stream")
                   "rm-filename" file.rm_filename)
                   "x-goog-hash" ("crc32c=" ++
                     String.mk (b64encode (natToBytes4BE (crc32cOf data)))))
                   "x-goog-content-length-range" rng)
                   "x-goog-hash" ("crc32c=" ++
                     String.mk (b64encode (natToBytes4BE (crc32cOf data)))),
               fetch := fetch_with_retries (env round).google
                 api.retry_strategy }]
            ((fetch_with_retries (env round).primary api.retry_strategy).resets
              + 1
              + (fetch_with_retries (env round).google api.retry_strategy).resets)
            resp2 := by
      conv_lhs => rw [put_file_async.eq_def]
      simp only [hok]
      rw [if_pos hst]
      simp only [hloc, hrng, hokg]
    rw [hred]
    unfold afterFinal
    rw [hst2, hbody2]
    simp

/-- Witness for C7: one expired-token round, then a clean 200 round. -/
theorem C7_witness :
    (fetch_with_retries (env7 0).primary api6.retry_strategy).result
      = .ok (some expiredResponse)
    ∧ expiredResponse.status = 400
    ∧ strContains "<Code>ExpiredToken</Code>" expiredResponse.body = true
    ∧ (put_file_async env7 api6 file6 [] 1 0).outcome
        = (put_file_async env7 api6 file6 [] 0 1).outcome
    ∧ (put_file_async env7 api6 file6 [] 1 0).finishes
        = 1 + (put_file_async env7 api6 file6 [] 0 1).finishes :=
  ⟨rfl, rfl, by decide,
   ((C7_expired_token_self_retry env7 api6 file6 [] 0 0).1 expiredResponse
     rfl rfl (by decide)).1,
   ((C7_expired_token_self_retry env7 api6 file6 [] 0 0).1 expiredResponse
     rfl rfl (by decide)).2.1⟩

theorem dictGet_set_self (d : List (String × String)) (k v : String) :
    dictGet (dictSet d k v) k = some v :=
  alGet_set_self d k v

theorem dictGet_set_ne (d : List (String × String)) (k v k' : String)
    (h : k' ≠ k) : dictGet (dictSet d k v) k' = dictGet d k' :=
  alGet_set_ne d k v k' h

/-! ## C8 — redirect handling -/

/-- C8: when the first PUT answers 302 and the PUT to the redirect's
`location` answers 200 (with no retries inside either fetch), the pipeline
resets the data stream exactly once, issues exactly the two PUTs — the
second to the `location` url — carries `x-goog-content-length-range` copied
from the redirect response on the second PUT, preserves every other original
header on it, and succeeds. -/
theorem C8_redirect_upload (env : Nat → UploadRound) (api : ApiConfig)
    (file : UploadFile) (data : List Nat) (fuel round : Nat)
    (resp resp2 : UploadResponse) (loc rng : String)
    (hok : (fetch_with_retries (env round).primary api.retry_strategy).result
      = .ok (some resp))
    (hst : resp.status = 302)
    (hloc : resp.headers "location" = some loc)
    (hrng : resp.headers "x-goog-content-length-range" = some rng)
    (hokg : (fetch_with_retries (env round).google api.retry_strategy).result
      = .ok (some resp2))
    (hst2 : resp2.status = 200)
    (hr1 : (fetch_with_retries (env round).primary api.retry_strategy).resets
      = 0)
    (hr2 : (fetch_with_retries (env round).google api.retry_strategy).resets
      = 0) :
    (put_file_async env api file data fuel round).outcome = .ok true
    ∧ (put_file_async env api file data fuel round).resets = 1
    ∧ (put_file_async env api file data fuel round).calls.map (fun c => c.url)
        = [api.document_storage_uri ++ "sync/v3/files/" ++ file.hash, loc]
    ∧ (∃ c1 c2, (put_file_async env api file data fuel round).calls = [c1, c2]
        ∧ c2.url = loc
        ∧ dictGet c2.headers "x-goog-content-length-range" = some rng
        ∧ (∀ k, k ≠ "x-goog-content-length-range" →
            dictGet c2.headers k = dictGet c1.headers k)) := by
  have hred : put_file_async env api file data fuel round
      = afterFinal
          (match fuel with
           | 0 => none
           | fuel1 + 1 => some (put_file_async env api file data fuel1 (round + 1)))
          data.length
          [{ url := api.document_storage_uri ++ "sync/v3/files/" ++ file.hash,
             headers := dictSet (dictSet (dictSet (dictSet api.session_headers
                 "content-length" (toString data.length))
                 "content-type" "application/octet-stream")
                 "rm-filename" file.rm_filename)
                 "x-goog-hash" ("crc32c=" ++
                   String.mk (b64encode (natToBytes4BE (crc32cOf data)))),
             fetch := fetch_with_retries (env round).primary
               api.retry_strategy },
           { url := loc,
             headers := dictSet (dictSet (dictSet (dictSet (dictSet
                 (dictSet api.session_headers
                 "content-length" (toString data.length))
                 "content-type" "application/octet-stream")
                 "rm-filename" file.rm_filename)
                 "x-goog-hash" ("crc32c=" ++
                   String.mk (b64encode (natToBytes4BE (crc32cOf data)))))
                 "x-goog-content-length-range" rng)
                 "x-goog-hash" ("crc32c=" ++
                   String.mk (b64encode (natToBytes4BE (crc32cOf data)))),
             fetch := fetch_with_retries (env round).google
               api.retry_strategy }]
          ((fetch_with_retries (env round).primary api.retry_strategy).resets
            + 1
            + (fetch_with_retries (env round).google api.retry_strategy).resets)
          resp2 := by
    conv_lhs => rw [put_file_async.eq_def]
    simp only [hok]
    rw [if_pos hst]
    simp only [hloc, hrng, hokg]
  have hno400 : ¬ (resp2.status == 400
      && strContains "<Code>ExpiredToken</Code>" resp2.body) = true := by
    rw [hst2]; simp
  rw [hred]
  unfold afterFinal
  rw [if_neg hno400, hst2]
  rw [if_neg (show ¬ ((200 : Nat) ≠ 200) from by simp)]
  refine ⟨rfl, by rw [hr1, hr2], rfl, ?_⟩
  refine ⟨_, _, rfl, rfl, ?_, ?_⟩
  · rw [dictGet_set_ne _ _ _ _ (by decide)]
    exact dictGet_set_self _ _ _
  · intro k hk
    by_cases hkh : k = "x-goog-hash"
    · subst hkh
      rw [dictGet_set_self, dictGet_set_self]
    · rw [dictGet_set_ne _ _ _ _ hkh, dictGet_set_ne _ _ _ _ hk,
        dictGet_set_ne _ _ _ _ hkh]

/-- Witness for C8 at the 302-then-200 transport. -/
theorem C8_witness :
    (fetch_with_retries (env8 0).primary api6.retry_strategy).result
      = .ok (some redirect302)
    ∧ redirect302.status = 302
    ∧ (put_file_async env8 api6 file6 [] 0 0).outcome = .ok true
    ∧ (put_file_async env8 api6 file6 [] 0 0).resets = 1
    ∧ (put_file_async env8 api6 file6 [] 0 0).calls.map (fun c => c.url)
        = [api6.document_storage_uri ++ "sync/v3/files/" ++ file6.hash,
           "https://storage.google/signed"] :=
  ⟨rfl, rfl,
   (C8_redirect_upload env8 api6 file6 [] 0 0 redirect302 okResponse
     "https://storage.google/signed" "0,100" rfl rfl rfl rfl rfl rfl rfl rfl).1,
   (C8_redirect_upload env8 api6 file6 [] 0 0 redirect302 okResponse
     "https://storage.google/signed" "0,100" rfl rfl rfl rfl rfl rfl rfl rfl).2.1,
   (C8_redirect_upload env8 api6 file6 [] 0 0 redirect302 okResponse
     "https://storage.google/signed" "0,100" rfl rfl rfl rfl rfl rfl rfl rfl).2.2.1⟩

/-! ## C3 — idempotence of the tree sync -/

/-- C3 counterexample: starting from a state that already knows the child
collection `C` (metadata hash matching the root) but not its parent `P`, the
first sync leaves `P.has_items = false` — the collection fast path records
the parent in `document_collections_with_items` only when the parent is
already in the map — while the second sync, now finding `P`, sets
`P.has_items = true`: the maps after the two runs differ. -/
theorem C3_counterexample :
    ((alGet (get_documents_using_root nonIdemRemote nonIdemRoot
        nonIdemState).state.document_collections "P").map
      (fun c => c.has_items) = some false)
    ∧ ((alGet (get_documents_using_root nonIdemRemote nonIdemRoot
        (get_documents_using_root nonIdemRemote nonIdemRoot
          nonIdemState).state).state.document_collections "P").map
      (fun c => c.has_items) = some true) :=
  ⟨rfl, rfl⟩

/-! ## Sortedness and item-order facts -/

theorem insertByKey_perm {α β : Type} (le : β → β → Bool) (key : α → β)
    (x : α) : ∀ l : List α, (insertByKey le key x l).Perm (x :: l)
  | [] => List.Perm.refl _
  | y :: ys => by
      unfold insertByKey
      split
      · exact List.Perm.refl _
      · exact ((insertByKey_perm le key x ys).cons y).trans
          (List.Perm.swap x y ys)

theorem sortByKey_perm {α β : Type} (le : β → β → Bool) (key : α → β) :
    ∀ l : List α, (sortByKey le key l).Perm l
  | [] => List.Perm.refl _
  | x :: xs =>
      (insertByKey_perm le key x (sortByKey le key xs)).trans
        ((sortByKey_perm le key xs).cons x)

theorem mem_insertByKey {α β : Type} (le : β → β → Bool) (key : α → β)
    (x : α) (l : List α) (a : α) :
    a ∈ insertByKey le key x l ↔ a = x ∨ a ∈ l := by
  constructor
  · intro h
    have := (insertByKey_perm le key x l).mem_iff.1 h
    simpa using this
  · intro h
    refine (insertByKey_perm le key x l).symm.mem_iff.1 ?_
    simpa using h

theorem pairwise_insertByKey {α β : Type} (le : β → β → Bool) (key : α → β)
    (htot : ∀ a b, le a b = true ∨ le b a = true)
    (htrans : ∀ a b c, le a b = true → le b c = true → le a c = true)
    (x : α) :
    ∀ l : List α,
      l.Pairwise (fun a b => le (key a) (key b) = true) →
      (insertByKey le key x l).Pairwise
        (fun a b => le (key a) (key b) = true)
  | [], _ => by simp [insertByKey]
  | y :: ys, h => by
      rw [List.pairwise_cons] at h
      unfold insertByKey
      split
      case isTrue hxy =>
        rw [List.pairwise_cons]
        refine ⟨?_, List.pairwise_cons.2 h⟩
        intro b hb
        rcases List.mem_cons.1 hb with hb | hb
        · subst hb
          exact hxy
        · exact htrans _ _ _ hxy (h.1 b hb)
      case isFalse hxy =>
        rw [List.pairwise_cons]
        constructor
        · intro b hb
          rcases (mem_insertByKey le key _ ys b).1 hb with hb | hb
          · subst hb
            rcases htot (key b) (key y) with hc | hc
            · exact absurd hc hxy
            · exact hc
          · exact h.1 b hb
        · exact pairwise_insertByKey le key htot htrans _ ys h.2

theorem pairwise_sortByKey {α β : Type} (le : β → β → Bool) (key : α → β)
    (htot : ∀ a b, le a b = true ∨ le b a = true)
    (htrans : ∀ a b c, le a b = true → le b c = true → le a c = true) :
    ∀ l : List α,
      (sortByKey le key l).Pairwise (fun a b => le (key a) (key b) = true)
  | [] => List.Pairwise.nil
  | x :: xs =>
      pairwise_insertByKey le key htot htrans x _
        (pairwise_sortByKey le key htot htrans xs)

theorem intLe_total (a b : Int) : intLe a b = true ∨ intLe b a = true := by
  unfold intLe
  by_cases h : a ≤ b
  · exact Or.inl (by simpa using h)
  · exact Or.inr (by simp; omega)

theorem intLe_trans (a b c : Int) (h1 : intLe a b = true)
    (h2 : intLe b c = true) : intLe a c = true := by
  simp [intLe] at h1 h2 ⊢
  omega

theorem takeWhile_append_of_forall {α : Type} (p : α → Bool) :
    ∀ (l1 : List α) (x : α) (l2 : List α),
      (∀ c ∈ l1, p c = true) → p x = false →
      (l1 ++ x :: l2).takeWhile p = l1
  | [], x, l2, _, hx => by simp [List.takeWhile_cons, hx]
  | c :: cs, x, l2, h1, hx => by
      have hc : p c = true := h1 c (by simp)
      simp only [List.cons_append, List.takeWhile_cons, hc, if_true]
      rw [takeWhile_append_of_forall p cs x l2 (fun d hd => h1 d (by simp [hd])) hx]

theorem lastDot_metadata (fid : String) :
    lastDotComponent (fid ++ ".metadata") = "metadata" := by
  unfold lastDotComponent
  rw [show (fid ++ ".metadata").data = fid.data ++ ('.' :: ("metadata" : String).data)
    from by rw [String.data_append]]
  rw [List.reverse_append]
  rw [show ('.' :: ("metadata" : String).data).reverse
      = ['a', 't', 'a', 'd', 'a', 't', 'e', 'm'] ++ ['.'] from by rfl]
  rw [List.append_assoc, List.singleton_append]
  rw [takeWhile_append_of_forall _ _ _ _ (by decide) (by decide)]
  decide

theorem lastDot_content (fid : String) :
    lastDotComponent (fid ++ ".content") = "content" := by
  unfold lastDotComponent
  rw [show (fid ++ ".content").data = fid.data ++ ('.' :: ("content" : String).data)
    from by rw [String.data_append]]
  rw [List.reverse_append]
  rw [show ('.' :: ("content" : String).data).reverse
      = ['t', 'n', 'e', 't', 'n', 'o', 'c'] ++ ['.'] from by rfl]
  rw [List.append_assoc, List.singleton_append]
  rw [takeWhile_append_of_forall _ _ _ _ (by decide) (by decide)]
  decide

theorem order_of_metadata_name (fid : String) (item : FileEntry)
    (h : item.uuid = fid ++ ".metadata") : get_file_item_order item = 1 := by
  unfold get_file_item_order
  rw [h, lastDot_metadata]
  rfl

theorem order_of_content_name (fid : String) (item : FileEntry)
    (h : item.uuid = fid ++ ".content") : get_file_item_order item = 0 := by
  unfold get_file_item_order
  rw [h, lastDot_content]
  rfl

theorem onceMeta_of_pairwise_nodup (fid : String) :
    ∀ items : List FileEntry,
      items.Pairwise
        (fun a b => intLe (get_file_item_order a) (get_file_item_order b) = true) →
      (items.map FileEntry.uuid).Nodup →
      OnceMeta fid items
  | [], _, _ => trivial
  | item :: rest, hp, hnd => by
      rw [List.pairwise_cons] at hp
      rw [List.map_cons, List.nodup_cons] at hnd
      refine ⟨?_, onceMeta_of_pairwise_nodup fid rest hp.2 hnd.2⟩
      intro hname j hj
      constructor
      · intro hj2
        apply hnd.1
        rw [hname, ← hj2]
        exact List.mem_map_of_mem FileEntry.uuid hj
      · intro hj2
        have h1 := hp.1 j hj
        rw [order_of_metadata_name fid item hname,
          order_of_content_name fid j hj2] at h1
        exact absurd h1 (by decide)

theorem onceMeta_sorted (fid : String) (l : List FileEntry)
    (hnd : (l.map FileEntry.uuid).Nodup) :
    OnceMeta fid (sortByKey intLe get_file_item_order l) := by
  refine onceMeta_of_pairwise_nodup fid _
    (pairwise_sortByKey intLe get_file_item_order intLe_total intLe_trans l) ?_
  refine List.Nodup.perm hnd ?_
  exact (List.Perm.map FileEntry.uuid (sortByKey_perm intLe get_file_item_order l)).symm

/-! ## The inner loop seen through the walk -/

theorem processItems_nop (env : SyncRemote) (fid : String)
    (sfc : List FileEntry) (mh : Bool) :
    ∀ (items : List FileEntry) (content : Option JsonVal) (ls : LoopState),
      noMetaNames fid items →
      processItems env fid sfc mh items content ls = ls
  | [], _, _, _ => rfl
  | item :: rest, content, ls, h => by
      rw [processItems]
      rw [if_neg (h item (by simp)).2, if_neg (h item (by simp)).1]
      exact processItems_nop env fid sfc mh rest content ls
        (fun j hj => h j (by simp [hj]))

theorem processItems_eq_walk (env : SyncRemote) (fid : String)
    (sfc : List FileEntry) (mh : Bool) :
    ∀ (items : List FileEntry) (content : Option JsonVal) (ls : LoopState),
      OnceMeta fid items →
      processItems env fid sfc mh items content ls
        = match walkToMetadata env fid items content with
          | none => ls
          | some (item, c) => applyMetadataItem env fid sfc mh item c ls
  | [], _, ls, _ => rfl
  | item :: rest, content, ls, h => by
      rw [processItems, walkToMetadata]
      by_cases h1 : item.uuid = fid ++ ".content"
      · rw [if_pos h1, if_pos h1]
        rcases hc : env.contentOf item.hash with _ | v
        · rfl
        · dsimp only
          by_cases hobj : v.isObj = true
          · rw [if_pos hobj, if_pos hobj]
            exact processItems_eq_walk env fid sfc mh rest (some v) ls h.2
          · rw [if_neg hobj, if_neg hobj]
      · rw [if_neg h1, if_neg h1]
        by_cases h2 : item.uuid = fid ++ ".metadata"
        · rw [if_pos h2, if_pos h2]
          have hrest := processItems_nop env fid sfc mh rest content
            (applyMetadataItem env fid sfc mh item content ls) (h.1 h2)
          by_cases hcont : metadataContinues env fid item ls = true
          · rw [if_pos hcont, hrest]
          · rw [if_neg hcont]
        · rw [if_neg h2, if_neg h2]
          exact processItems_eq_walk env fid sfc mh rest content ls h.2

theorem processFile_eq_walk (env : SyncRemote) (f : FileEntry) (ls : LoopState)
    (hnd : ((env.index f.hash).map FileEntry.uuid).Nodup) :
    processFile env f ls
      = match reachableMetadata env f with
        | none => ls
        | some (item, c) =>
            applyMetadataItem env f.uuid
              (sortByKey intLe get_file_item_order (env.index f.hash))
              (f.hash == documentExpectedHash f.uuid (env.index f.hash))
              item c ls := by
  unfold processFile reachableMetadata
  exact processItems_eq_walk env f.uuid _ _ _ none ls
    (onceMeta_sorted f.uuid _ hnd)

/-! ## Effect lemmas for the metadata branches -/

theorem alGet_isSome_of_mem_keys {α : Type} (m : List (String × α))
    (u : String) (h : u ∈ m.map (fun p => p.1)) : ∃ v, alGet m u = some v := by
  induction m with
  | nil => simp at h
  | cons p ps ih =>
      rw [alGet_cons]
      by_cases hp : p.1 = u
      · exact ⟨p.2, by simp [hp]⟩
      · simp only [List.map_cons, List.mem_cons] at h
        rcases h with h | h
        · exact absurd h.symm hp
        · simpa [hp] using ih h

theorem alGet_eq_none_iff {α : Type} (m : List (String × α)) (u : String) :
    alGet m u = none ↔ u ∉ m.map (fun p => p.1) := by
  constructor
  · intro h hmem
    obtain ⟨v, hv⟩ := alGet_isSome_of_mem_keys m u hmem
    rw [h] at hv
    exact Option.noConfusion hv
  · intro h
    rcases hm : alGet m u with _ | v
    · rfl
    · exact absurd (alGet_mem_keys m u v hm) h

theorem alGet_modify_core (m : List (String × DocumentCollection))
    (k : String) (b : Bool) (u : String) :
    (alGet (alModify m k (fun c => { c with has_items := b })) u).map collCore
      = (alGet m u).map collCore := by
  by_cases hu : u = k
  · subst hu
    rw [alGet_modify_self]
    rcases alGet m u with _ | c <;> rfl
  · rw [alGet_modify_ne m k _ u hu]

theorem collFastPath_fields (fid : String) (c : DocumentCollection)
    (ls : LoopState) :
    (collFastPath fid c ls).docs = ls.docs
    ∧ (collFastPath fid c ls).delDocs = ls.delDocs
    ∧ (collFastPath fid c ls).delColls = ls.delColls.erase fid
    ∧ ∀ u, (alGet (collFastPath fid c ls).colls u).map collCore
        = (alGet ls.colls u).map collCore := by
  refine ⟨rfl, rfl, rfl, fun u => ?_⟩
  unfold collFastPath
  dsimp only
  split
  · rw [alGet_modify_core]
    split
    · rfl
    · rw [alGet_modify_core]
  · split
    · rfl
    · rw [alGet_modify_core]

theorem docFastPath_fields (fid : String) (d : Document) (ls : LoopState) :
    (docFastPath fid d ls).docs = ls.docs
    ∧ (docFastPath fid d ls).delColls = ls.delColls
    ∧ (docFastPath fid d ls).delDocs = ls.delDocs.erase fid
    ∧ ∀ u, (alGet (docFastPath fid d ls).colls u).map collCore
        = (alGet ls.colls u).map collCore := by
  refine ⟨rfl, rfl, rfl, fun u => ?_⟩
  unfold docFastPath
  dsimp only
  split
  · rw [alGet_modify_core]
  · rfl

theorem createColl_fields (fid : String) (md : Metadata)
    (cnt : Option JsonVal) (ls : LoopState) :
    (createColl fid md cnt ls).docs = ls.docs
    ∧ (createColl fid md cnt ls).delDocs = ls.delDocs
    ∧ (createColl fid md cnt ls).delColls = ls.delColls.erase fid
    ∧ (alGet (createColl fid md cnt ls).colls fid).map collCore
        = some (fid, md, tagsOf cnt)
    ∧ ∀ u, u ≠ fid →
        (alGet (createColl fid md cnt ls).colls u).map collCore
          = (alGet ls.colls u).map collCore := by
  refine ⟨rfl, rfl, rfl, ?_, fun u hu => ?_⟩
  · unfold createColl
    dsimp only
    split
    · rw [alGet_modify_core]
      split
      · rw [alGet_modify_core, alGet_set_self]
        rfl
      · rw [alGet_set_self]
        rfl
    · split
      · rw [alGet_modify_core, alGet_set_self]
        rfl
      · rw [alGet_set_self]
        rfl
  · unfold createColl
    dsimp only
    split
    · rw [alGet_modify_core]
      split
      · rw [alGet_modify_core, alGet_set_ne _ _ _ _ hu]
      · rw [alGet_set_ne _ _ _ _ hu]
    · split
      · rw [alGet_modify_core, alGet_set_ne _ _ _ _ hu]
      · rw [alGet_set_ne _ _ _ _ hu]

theorem createDoc_fields (fid : String) (md : Metadata)
    (cnt : Option JsonVal) (chash : String) (fc : List FileEntry) (mh : Bool)
    (ls : LoopState) :
    (createDoc fid md cnt chash fc mh ls).delColls = ls.delColls
    ∧ (createDoc fid md cnt chash fc mh ls).delDocs = ls.delDocs.erase fid
    ∧ (∀ u, (alGet (createDoc fid md cnt chash fc mh ls).colls u).map collCore
        = (alGet ls.colls u).map collCore)
    ∧ alGet (createDoc fid md cnt chash fc mh ls).docs fid
        = some { uuid := fid, metadata := md, content := cnt,
                 content_hash := chash, files := fc, provision := false }
    ∧ ∀ u, u ≠ fid →
        alGet (createDoc fid md cnt chash fc mh ls).docs u = alGet ls.docs u := by
  refine ⟨rfl, rfl, fun u => ?_, ?_, fun u hu => ?_⟩
  · unfold createDoc
    dsimp only
    split
    · rw [alGet_modify_core]
    · rfl
  · unfold createDoc
    dsimp only
    exact alGet_set_self _ _ _
  · unfold createDoc
    dsimp only
    exact alGet_set_ne _ _ _ _ hu

theorem settledColl_mono (env : SyncRemote) (p1 p2 : List FileEntry)
    (hsub : ∀ f ∈ p1, f ∈ p2) (u : String) (c : DocumentCollection)
    (h : SettledColl env p1 u c) : SettledColl env p2 u c := by
  obtain ⟨f, hf, h1, h2⟩ := h
  exact ⟨f, hsub f hf, h1, h2⟩

theorem settledDoc_mono (env : SyncRemote) (p1 p2 : List FileEntry)
    (hsub : ∀ f ∈ p1, f ∈ p2) (u : String) (d : Document)
    (h : SettledDoc env p1 u d) : SettledDoc env p2 u d := by
  obtain ⟨f, hf, h1, h2⟩ := h
  exact ⟨f, hsub f hf, h1, h2⟩

/-- Two maps with pointwise-equal collection cores agree on `metadata` (and
existence) at every key. -/
theorem collCore_metadata_eq {c1 c2 : DocumentCollection}
    (h : collCore c1 = collCore c2) : c1.metadata = c2.metadata := by
  unfold collCore at h
  simp only [Prod.mk.injEq] at h
  exact h.2.1

/-! ## The settledness invariant through one entry -/

theorem settledColl_hash_transfer (env : SyncRemote) (p : List FileEntry)
    (u : String) {c c' : DocumentCollection}
    (h : SettledColl env p u c') (hh : c'.metadata.hash = c.metadata.hash) :
    SettledColl env p u c := by
  obtain ⟨f, hf, h1, item, cnt, h2, h3⟩ := h
  exact ⟨f, hf, h1, item, cnt, h2, h3.trans hh⟩

theorem core_some_inv {m1 m2 : List (String × DocumentCollection)}
    {u : String}
    (h : (alGet m1 u).map collCore = (alGet m2 u).map collCore)
    {c : DocumentCollection} (hc : alGet m1 u = some c) :
    ∃ c', alGet m2 u = some c' ∧ collCore c' = collCore c := by
  rw [hc] at h
  rcases hm : alGet m2 u with _ | c'
  · rw [hm] at h
    exact Option.noConfusion h
  · rw [hm] at h
    exact ⟨c', rfl, (Option.some.injEq _ _ ▸ h).symm⟩

theorem core_none_iff {m1 m2 : List (String × DocumentCollection)}
    {u : String}
    (h : (alGet m1 u).map collCore = (alGet m2 u).map collCore) :
    alGet m1 u = none ↔ alGet m2 u = none := by
  constructor
  · intro h1
    rw [h1] at h
    rcases hm : alGet m2 u with _ | c'
    · rfl
    · rw [hm] at h
      exact Option.noConfusion h
  · intro h2
    rw [h2] at h
    rcases hm : alGet m1 u with _ | c
    · rfl
    · rw [hm] at h
      exact Option.noConfusion h

theorem invA_mono_stuck (env : SyncRemote) (processed : List FileEntry)
    (g : FileEntry) (ls : LoopState) (hstuck : Stuck env g)
    (hInv : InvA env processed ls) : InvA env (processed ++ [g]) ls := by
  obtain ⟨hN1, hN2, hIA1, hIA2, hIA7, hIA6, hIA5, hIA8⟩ := hInv
  have hsub : ∀ f ∈ processed, f ∈ processed ++ [g] := fun f hf => by simp [hf]
  refine ⟨hN1, hN2, ?_, ?_, ?_, ?_, hIA5, ?_⟩
  · exact fun u c hc hd =>
      settledColl_mono env processed _ hsub u c (hIA1 u c hc hd)
  · exact fun u d hd hdel =>
      settledDoc_mono env processed _ hsub u d (hIA2 u d hd hdel)
  · intro u h1 h2
    obtain ⟨f, hf, hfu⟩ := hIA7 u h1 h2
    exact ⟨f, hsub f hf, hfu⟩
  · intro u h1 h2
    obtain ⟨f, hf, hfu⟩ := hIA6 u h1 h2
    exact ⟨f, hsub f hf, hfu⟩
  · intro f hf
    rcases List.mem_append.1 hf with hf | hf
    · exact hIA8 f hf
    · rw [List.mem_singleton.1 hf]
      exact Or.inl hstuck

theorem invA_collFastPath (env : SyncRemote) (processed : List FileEntry)
    (g : FileEntry) (ls : LoopState) (item : FileEntry)
    (cnt : Option JsonVal) (oldColl : DocumentCollection)
    (hreach : reachableMetadata env g = some (item, cnt))
    (hnew : ∀ f ∈ processed, ¬ f.uuid = g.uuid)
    (hcu : alGet ls.colls g.uuid = some oldColl)
    (hmatch : oldColl.metadata.hash = item.hash)
    (hInv : InvA env processed ls) :
    InvA env (processed ++ [g]) (collFastPath g.uuid oldColl ls) := by
  obtain ⟨hN1, hN2, hIA1, hIA2, hIA7, hIA6, hIA5, hIA8⟩ := hInv
  obtain ⟨hfd, hfdd, hfdc, hfcore⟩ := collFastPath_fields g.uuid oldColl ls
  have hsub : ∀ f ∈ processed, f ∈ processed ++ [g] := fun f hf => by simp [hf]
  have hmemdc : ∀ u, u ≠ g.uuid →
      (u ∈ (collFastPath g.uuid oldColl ls).delColls ↔ u ∈ ls.delColls) := by
    intro u hu
    rw [hfdc]
    exact List.mem_erase_of_ne hu
  refine ⟨?_, ?_, ?_, ?_, ?_, ?_, ?_, ?_⟩
  · rw [hfdc]; exact hN1.erase _
  · rw [hfdd]; exact hN2
  · intro u c hc hdel
    obtain ⟨c', hc', hcoreEq⟩ := core_some_inv (hfcore u) hc
    by_cases hu : u = g.uuid
    · subst hu
      have : c' = oldColl := by rw [hcu] at hc'; exact (Option.some.injEq _ _ ▸ hc'.symm)
      subst this
      refine ⟨g, by simp, rfl, item, cnt, hreach, ?_⟩
      rw [← collCore_metadata_eq hcoreEq, hmatch]
    · have hdel' : u ∉ ls.delColls := fun hmem => hdel ((hmemdc u hu).2 hmem)
      refine settledColl_hash_transfer env _ u
        (settledColl_mono env processed _ hsub u c' (hIA1 u c' hc' hdel')) ?_
      rw [collCore_metadata_eq hcoreEq]
  · intro u d hd hdel
    rw [hfd] at hd
    rw [hfdd] at hdel
    exact settledDoc_mono env processed _ hsub u d (hIA2 u d hd hdel)
  · intro u h1 h2
    by_cases hu : u = g.uuid
    · exact ⟨g, by simp, hu.symm⟩
    · have h1' : ¬ alGet ls.colls u = none := fun hn =>
        h1 ((core_none_iff (hfcore u)).2 hn)
      have h2' : u ∉ ls.delColls := fun hmem => h2 ((hmemdc u hu).2 hmem)
      obtain ⟨f, hf, hfu⟩ := hIA7 u h1' h2'
      exact ⟨f, hsub f hf, hfu⟩
  · intro u h1 h2
    rw [hfd] at h1
    rw [hfdd] at h2
    obtain ⟨f, hf, hfu⟩ := hIA6 u h1 h2
    exact ⟨f, hsub f hf, hfu⟩
  · intro u h1 h2 h3
    rw [hfd] at h3
    rw [hfdd]
    by_cases hu : u = g.uuid
    · by_contra hnot
      obtain ⟨f, hf, hfu⟩ := hIA6 u h3 hnot
      exact hnew f hf (by rw [hfu, hu])
    · have h1' : ¬ alGet ls.colls u = none := fun hn =>
        h1 ((core_none_iff (hfcore u)).2 hn)
      have h2' : u ∉ ls.delColls := fun hmem => h2 ((hmemdc u hu).2 hmem)
      exact hIA5 u h1' h2' h3
  · intro f hf
    rcases List.mem_append.1 hf with hf | hf
    · rcases hIA8 f hf with h | h | h
      · exact Or.inl h
      · refine Or.inr (Or.inl ⟨?_, ?_⟩)
        · rw [hfdc]
          exact fun hmem => h.1 (List.mem_of_mem_erase hmem)
        · exact fun hn => h.2 ((core_none_iff (hfcore f.uuid)).1 hn)
      · refine Or.inr (Or.inr ⟨?_, ?_⟩)
        · rw [hfdd]; exact h.1
        · rw [hfd]; exact h.2
    · rw [List.mem_singleton.1 hf]
      refine Or.inr (Or.inl ⟨?_, ?_⟩)
      · rw [hfdc]
        exact hN1.not_mem_erase
      · intro hn
        rw [(core_none_iff (hfcore g.uuid)).1 hn] at hcu
        exact Option.noConfusion hcu

theorem invA_docFastPath (env : SyncRemote) (processed : List FileEntry)
    (g : FileEntry) (ls : LoopState) (item : FileEntry)
    (cnt : Option JsonVal) (oldDoc : Document)
    (hreach : reachableMetadata env g = some (item, cnt))
    (hnew : ∀ f ∈ processed, ¬ f.uuid = g.uuid)
    (hcu : alGet ls.colls g.uuid = none)
    (hdu : alGet ls.docs g.uuid = some oldDoc)
    (hmatch : oldDoc.metadata.hash = item.hash)
    (hInv : InvA env processed ls) :
    InvA env (processed ++ [g]) (docFastPath g.uuid oldDoc ls) := by
  obtain ⟨hN1, hN2, hIA1, hIA2, hIA7, hIA6, hIA5, hIA8⟩ := hInv
  obtain ⟨hfd, hfdc, hfdd, hfcore⟩ := docFastPath_fields g.uuid oldDoc ls
  have hsub : ∀ f ∈ processed, f ∈ processed ++ [g] := fun f hf => by simp [hf]
  have hmemdd : ∀ u, u ≠ g.uuid →
      (u ∈ (docFastPath g.uuid oldDoc ls).delDocs ↔ u ∈ ls.delDocs) := by
    intro u hu
    rw [hfdd]
    exact List.mem_erase_of_ne hu
  refine ⟨?_, ?_, ?_, ?_, ?_, ?_, ?_, ?_⟩
  · rw [hfdc]; exact hN1
  · rw [hfdd]; exact hN2.erase _
  · intro u c hc hdel
    obtain ⟨c', hc', hcoreEq⟩ := core_some_inv (hfcore u) hc
    rw [hfdc] at hdel
    refine settledColl_hash_transfer env _ u
      (settledColl_mono env processed _ hsub u c' (hIA1 u c' hc' hdel)) ?_
    rw [collCore_metadata_eq hcoreEq]
  · intro u d hd hdel
    rw [hfd] at hd
    by_cases hu : u = g.uuid
    · subst hu
      have : d = oldDoc := by rw [hdu] at hd; exact (Option.some.injEq _ _ ▸ hd.symm)
      subst this
      exact ⟨g, by simp, rfl, item, cnt, hreach, hmatch.symm⟩
    · have hdel' : u ∉ ls.delDocs := fun hmem => hdel ((hmemdd u hu).2 hmem)
      exact settledDoc_mono env processed _ hsub u d (hIA2 u d hd hdel')
  · intro u h1 h2
    have h1' : ¬ alGet ls.colls u = none := fun hn =>
      h1 ((core_none_iff (hfcore u)).2 hn)
    rw [hfdc] at h2
    obtain ⟨f, hf, hfu⟩ := hIA7 u h1' h2
    exact ⟨f, hsub f hf, hfu⟩
  · intro u h1 h2
    by_cases hu : u = g.uuid
    · exact ⟨g, by simp, hu.symm⟩
    · rw [hfd] at h1
      have h2' : u ∉ ls.delDocs := fun hmem => h2 ((hmemdd u hu).2 hmem)
      obtain ⟨f, hf, hfu⟩ := hIA6 u h1 h2'
      exact ⟨f, hsub f hf, hfu⟩
  · intro u h1 h2 h3
    by_cases hu : u = g.uuid
    · exact absurd ((core_none_iff (hfcore u)).2 (by rw [hu]; exact hcu)) h1
    · have h1' : ¬ alGet ls.colls u = none := fun hn =>
        h1 ((core_none_iff (hfcore u)).2 hn)
      rw [hfdc] at h2
      have := hIA5 u h1' h2 (by rw [hfd] at h3; exact h3)
      exact (hmemdd u hu).2 this
  · intro f hf
    rcases List.mem_append.1 hf with hf | hf
    · rcases hIA8 f hf with h | h | h
      · exact Or.inl h
      · refine Or.inr (Or.inl ⟨?_, ?_⟩)
        · rw [hfdc]; exact h.1
        · exact fun hn => h.2 ((core_none_iff (hfcore f.uuid)).1 hn)
      · refine Or.inr (Or.inr ⟨?_, ?_⟩)
        · rw [hfdd]
          exact fun hmem => h.1 (List.mem_of_mem_erase hmem)
        · rw [hfd]; exact h.2
    · rw [List.mem_singleton.1 hf]
      refine Or.inr (Or.inr ⟨?_, ?_⟩)
      · rw [hfdd]
        exact hN2.not_mem_erase
      · rw [hfd, hdu]
        exact fun hn => Option.noConfusion hn

theorem invA_createColl (env : SyncRemote) (processed : List FileEntry)
    (g : FileEntry) (ls : LoopState) (item : FileEntry)
    (cnt : Option JsonVal) (md : String × String)
    (hreach : reachableMetadata env g = some (item, cnt))
    (hnew : ∀ f ∈ processed, ¬ f.uuid = g.uuid)
    (hInv : InvA env processed ls) :
    InvA env (processed ++ [g])
      (createColl g.uuid { type := md.1, parent := md.2, hash := item.hash }
        cnt ls) := by
  obtain ⟨hN1, hN2, hIA1, hIA2, hIA7, hIA6, hIA5, hIA8⟩ := hInv
  obtain ⟨hfd, hfdd, hfdc, hfat, hfne⟩ :=
    createColl_fields g.uuid { type := md.1, parent := md.2, hash := item.hash }
      cnt ls
  have hsub : ∀ f ∈ processed, f ∈ processed ++ [g] := fun f hf => by simp [hf]
  have hmemdc : ∀ u, u ≠ g.uuid →
      (u ∈ (createColl g.uuid
          { type := md.1, parent := md.2, hash := item.hash } cnt ls).delColls
        ↔ u ∈ ls.delColls) := by
    intro u hu
    rw [hfdc]
    exact List.mem_erase_of_ne hu
  refine ⟨?_, ?_, ?_, ?_, ?_, ?_, ?_, ?_⟩
  · rw [hfdc]; exact hN1.erase _
  · rw [hfdd]; exact hN2
  · intro u c hc hdel
    by_cases hu : u = g.uuid
    · subst hu
      rw [hc] at hfat
      have hcm : c.metadata = { type := md.1, parent := md.2, hash := item.hash } := by
        have := (Option.some.injEq _ _ ▸ hfat)
        unfold collCore at this
        simp only [Prod.mk.injEq] at this
        exact this.2.1
      refine ⟨g, by simp, rfl, item, cnt, hreach, ?_⟩
      rw [hcm]
    · obtain ⟨c', hc', hcoreEq⟩ := core_some_inv (hfne u hu) hc
      have hdel' : u ∉ ls.delColls := fun hmem => hdel ((hmemdc u hu).2 hmem)
      refine settledColl_hash_transfer env _ u
        (settledColl_mono env processed _ hsub u c' (hIA1 u c' hc' hdel')) ?_
      rw [collCore_metadata_eq hcoreEq]
  · intro u d hd hdel
    rw [hfd] at hd
    rw [hfdd] at hdel
    exact settledDoc_mono env processed _ hsub u d (hIA2 u d hd hdel)
  · intro u h1 h2
    by_cases hu : u = g.uuid
    · exact ⟨g, by simp, hu.symm⟩
    · have h1' : ¬ alGet ls.colls u = none := fun hn =>
        h1 ((core_none_iff (hfne u hu)).2 hn)
      have h2' : u ∉ ls.delColls := fun hmem => h2 ((hmemdc u hu).2 hmem)
      obtain ⟨f, hf, hfu⟩ := hIA7 u h1' h2'
      exact ⟨f, hsub f hf, hfu⟩
  · intro u h1 h2
    rw [hfd] at h1
    rw [hfdd] at h2
    obtain ⟨f, hf, hfu⟩ := hIA6 u h1 h2
    exact ⟨f, hsub f hf, hfu⟩
  · intro u h1 h2 h3
    rw [hfd] at h3
    rw [hfdd]
    by_cases hu : u = g.uuid
    · by_contra hnot
      obtain ⟨f, hf, hfu⟩ := hIA6 u h3 hnot
      exact hnew f hf (by rw [hfu, hu])
    · have h1' : ¬ alGet ls.colls u = none := fun hn =>
        h1 ((core_none_iff (hfne u hu)).2 hn)
      have h2' : u ∉ ls.delColls := fun hmem => h2 ((hmemdc u hu).2 hmem)
      exact hIA5 u h1' h2' h3
  · intro f hf
    rcases List.mem_append.1 hf with hf | hf
    · rcases hIA8 f hf with h | h | h
      · exact Or.inl h
      · refine Or.inr (Or.inl ⟨?_, ?_⟩)
        · rw [hfdc]
          exact fun hmem => h.1 (List.mem_of_mem_erase hmem)
        · exact fun hn =>
            h.2 ((core_none_iff (hfne f.uuid (hnew f hf))).1 hn)
      · refine Or.inr (Or.inr ⟨?_, ?_⟩)
        · rw [hfdd]; exact h.1
        · rw [hfd]; exact h.2
    · rw [List.mem_singleton.1 hf]
      refine Or.inr (Or.inl ⟨?_, ?_⟩)
      · rw [hfdc]
        exact hN1.not_mem_erase
      · intro hn
        rw [hn] at hfat
        exact Option.noConfusion hfat

theorem invA_createDoc (env : SyncRemote) (processed : List FileEntry)
    (g : FileEntry) (ls : LoopState) (item : FileEntry)
    (cnt : Option JsonVal) (md : String × String) (sfc : List FileEntry)
    (mh : Bool)
    (hreach : reachableMetadata env g = some (item, cnt))
    (hnew : ∀ f ∈ processed, ¬ f.uuid = g.uuid)
    (hInv : InvA env processed ls) :
    InvA env (processed ++ [g])
      (createDoc g.uuid { type := md.1, parent := md.2, hash := item.hash }
        cnt item.hash sfc mh ls) := by
  obtain ⟨hN1, hN2, hIA1, hIA2, hIA7, hIA6, hIA5, hIA8⟩ := hInv
  obtain ⟨hfdc, hfdd, hfcore, hfat, hfne⟩ :=
    createDoc_fields g.uuid { type := md.1, parent := md.2, hash := item.hash }
      cnt item.hash sfc mh ls
  have hsub : ∀ f ∈ processed, f ∈ processed ++ [g] := fun f hf => by simp [hf]
  have hmemdd : ∀ u, u ≠ g.uuid →
      (u ∈ (createDoc g.uuid
          { type := md.1, parent := md.2, hash := item.hash } cnt item.hash
          sfc mh ls).delDocs ↔ u ∈ ls.delDocs) := by
    intro u hu
    rw [hfdd]
    exact List.mem_erase_of_ne hu
  refine ⟨?_, ?_, ?_, ?_, ?_, ?_, ?_, ?_⟩
  · rw [hfdc]; exact hN1
  · rw [hfdd]; exact hN2.erase _
  · intro u c hc hdel
    obtain ⟨c', hc', hcoreEq⟩ := core_some_inv (hfcore u) hc
    rw [hfdc] at hdel
    refine settledColl_hash_transfer env _ u
      (settledColl_mono env processed _ hsub u c' (hIA1 u c' hc' hdel)) ?_
    rw [collCore_metadata_eq hcoreEq]
  · intro u d hd hdel
    by_cases hu : u = g.uuid
    · subst hu
      rw [hfat] at hd
      have hdm : d.metadata = { type := md.1, parent := md.2, hash := item.hash } := by
        have := (Option.some.injEq _ _ ▸ hd.symm)
        rw [this]
      exact ⟨g, by simp, rfl, item, cnt, hreach, by rw [hdm]⟩
    · rw [hfne u hu] at hd
      have hdel' : u ∉ ls.delDocs := fun hmem => hdel ((hmemdd u hu).2 hmem)
      exact settledDoc_mono env processed _ hsub u d (hIA2 u d hd hdel')
  · intro u h1 h2
    have h1' : ¬ alGet ls.colls u = none := fun hn =>
      h1 ((core_none_iff (hfcore u)).2 hn)
    rw [hfdc] at h2
    obtain ⟨f, hf, hfu⟩ := hIA7 u h1' h2
    exact ⟨f, hsub f hf, hfu⟩
  · intro u h1 h2
    by_cases hu : u = g.uuid
    · exact ⟨g, by simp, hu.symm⟩
    · rw [hfne u hu] at h1
      have h2' : u ∉ ls.delDocs := fun hmem => h2 ((hmemdd u hu).2 hmem)
      obtain ⟨f, hf, hfu⟩ := hIA6 u h1 h2'
      exact ⟨f, hsub f hf, hfu⟩
  · intro u h1 h2 h3
    by_cases hu : u = g.uuid
    · exfalso
      have h1' : ¬ alGet ls.colls u = none := fun hn =>
        h1 ((core_none_iff (hfcore u)).2 hn)
      rw [hfdc] at h2
      obtain ⟨f, hf, hfu⟩ := hIA7 u h1' h2
      exact hnew f hf (by rw [hfu, hu])
    · have h1' : ¬ alGet ls.colls u = none := fun hn =>
        h1 ((core_none_iff (hfcore u)).2 hn)
      rw [hfdc] at h2
      rw [hfne u hu] at h3
      have := hIA5 u h1' h2 h3
      exact (hmemdd u hu).2 this
  · intro f hf
    rcases List.mem_append.1 hf with hf | hf
    · rcases hIA8 f hf with h | h | h
      · exact Or.inl h
      · refine Or.inr (Or.inl ⟨?_, ?_⟩)
        · rw [hfdc]; exact h.1
        · exact fun hn => h.2 ((core_none_iff (hfcore f.uuid)).1 hn)
      · refine Or.inr (Or.inr ⟨?_, ?_⟩)
        · rw [hfdd]
          exact fun hmem => h.1 (List.mem_of_mem_erase hmem)
        · rw [hfne f.uuid (hnew f hf)]; exact h.2
    · rw [List.mem_singleton.1 hf]
      refine Or.inr (Or.inr ⟨?_, ?_⟩)
      · rw [hfdd]
        exact hN2.not_mem_erase
      · rw [hfat]
        exact fun hn => Option.noConfusion hn

theorem invA_parsePath (env : SyncRemote) (processed : List FileEntry)
    (g : FileEntry) (ls : LoopState) (item : FileEntry)
    (cnt : Option JsonVal) (sfc : List FileEntry) (mh : Bool)
    (hreach : reachableMetadata env g = some (item, cnt))
    (hnew : ∀ f ∈ processed, ¬ f.uuid = g.uuid)
    (hInv : InvA env processed ls) :
    InvA env (processed ++ [g])
      (parseMetadataPath env g.uuid sfc mh item cnt ls) := by
  unfold parseMetadataPath
  rcases hparse : env.metadataOf item.hash with _ | md
  · exact invA_mono_stuck env processed g ls
      (by simp only [Stuck, hreach, hparse]) hInv
  · dsimp only
    by_cases hct : md.1 = "CollectionType"
    · rw [if_pos hct]
      exact invA_createColl env processed g ls item cnt md hreach hnew hInv
    · rw [if_neg hct]
      by_cases hdt : md.1 = "DocumentType"
      · rw [if_pos hdt]
        exact invA_createDoc env processed g ls item cnt md sfc mh
          hreach hnew hInv
      · rw [if_neg hdt]
        exact invA_mono_stuck env processed g ls
          (by simp only [Stuck, hreach, hparse]; exact ⟨hct, hdt⟩) hInv

theorem invA_step (env : SyncRemote) (processed : List FileEntry)
    (g : FileEntry) (ls : LoopState)
    (hnd : ((env.index g.hash).map FileEntry.uuid).Nodup)
    (hnew : ∀ f ∈ processed, ¬ f.uuid = g.uuid)
    (hInv : InvA env processed ls) :
    InvA env (processed ++ [g]) (processFile env g ls) := by
  rw [processFile_eq_walk env g ls hnd]
  rcases hreach : reachableMetadata env g with _ | ⟨item, cnt⟩
  · exact invA_mono_stuck env processed g ls
      (by simp only [Stuck, hreach]) hInv
  · unfold applyMetadataItem
    rcases hcu : alGet ls.colls g.uuid with _ | oldColl
    · rcases hdu : alGet ls.docs g.uuid with _ | oldDoc
      · exact invA_parsePath env processed g ls item cnt _ _ hreach hnew hInv
      · dsimp only
        by_cases hmatch : oldDoc.metadata.hash = item.hash
        · rw [if_pos hmatch]
          exact invA_docFastPath env processed g ls item cnt oldDoc
            hreach hnew hcu hdu hmatch hInv
        · rw [if_neg hmatch]
          exact invA_parsePath env processed g ls item cnt _ _ hreach hnew hInv
    · dsimp only
      by_cases hmatch : oldColl.metadata.hash = item.hash
      · rw [if_pos hmatch]
        exact invA_collFastPath env processed g ls item cnt oldColl
          hreach hnew hcu hmatch hInv
      · rw [if_neg hmatch]
        exact invA_parsePath env processed g ls item cnt _ _ hreach hnew hInv

theorem phaseA_invA (env : SyncRemote) (total : Nat) :
    ∀ (todo processed : List FileEntry) (i : Nat) (ls : LoopState),
      (∀ f ∈ todo, ((env.index f.hash).map FileEntry.uuid).Nodup) →
      ((processed ++ todo).map FileEntry.uuid).Nodup →
      InvA env processed ls →
      InvA env (processed ++ todo) (phaseA env total todo i ls).1
  | [], processed, i, ls, _, _, hInv => by
      rw [List.append_nil]; exact hInv
  | g :: rest, processed, i, ls, hidx, hnd, hInv => by
      have hnew : ∀ f ∈ processed, ¬ f.uuid = g.uuid := by
        intro f hf hfu
        rw [List.map_append, List.nodup_append] at hnd
        exact hnd.2.2 (List.mem_map_of_mem FileEntry.uuid hf)
          (by rw [hfu]; simp)
      have hstep := invA_step env processed g ls
        (hidx g (by simp)) hnew hInv
      have hrec := phaseA_invA env total rest (processed ++ [g]) (i + 1)
        (processFile env g ls)
        (fun f hf => hidx f (by simp [hf]))
        (by rw [List.append_assoc]; simpa using hnd) hstep
      rw [List.append_assoc] at hrec
      simpa [phaseA] using hrec

theorem invA_init (env : SyncRemote) (s : SyncState)
    (hck : (s.document_collections.map (fun p => p.1)).Nodup)
    (hdk : (s.documents.map (fun p => p.1)).Nodup) :
    InvA env [] (initLoopState s) := by
  refine ⟨hck, hdk, ?_, ?_, ?_, ?_, ?_, ?_⟩
  · intro u c hc hdel
    exact absurd (alGet_mem_keys _ u c hc) hdel
  · intro u d hd hdel
    exact absurd (alGet_mem_keys _ u d hd) hdel
  · intro u h1 h2
    rcases hm : alGet (initLoopState s).colls u with _ | c
    · exact absurd hm h1
    · exact absurd (alGet_mem_keys _ u c hm) h2
  · intro u h1 h2
    rcases hm : alGet (initLoopState s).docs u with _ | d
    · exact absurd hm h1
    · exact absurd (alGet_mem_keys _ u d hm) h2
  · intro u h1 h2
    rcases hm : alGet (initLoopState s).colls u with _ | c
    · exact absurd hm h1
    · exact absurd (alGet_mem_keys _ u c hm) h2
  · intro f hf
    exact absurd hf (List.not_mem_nil f)

theorem settled_of_invA (env : SyncRemote) (files : List FileEntry)
    (ls : LoopState) (hInv : InvA env files ls) :
    SettledState env files
      { document_collections := ls.delColls.foldl (fun m u => alDel m u) ls.colls,
        documents := ls.delDocs.foldl (fun m u =>
          match alGet m u with
          | some d => if d.provision then m else alDel m u
          | none => m) ls.docs } := by
  obtain ⟨hN1, hN2, hIA1, hIA2, hIA7, hIA6, hIA5, hIA8⟩ := hInv
  refine ⟨?_, ?_, ?_, ?_⟩
  · intro u c hc
    rw [show alGet
        ({ document_collections := ls.delColls.foldl (fun m u => alDel m u) ls.colls,
           documents := _ } : SyncState).document_collections u
      = alGet (ls.delColls.foldl (fun m u => alDel m u) ls.colls) u from rfl,
      collsDeleteFold_get] at hc
    by_cases hmem : u ∈ ls.delColls
    · rw [if_pos hmem] at hc
      exact Option.noConfusion hc
    · rw [if_neg hmem] at hc
      exact hIA1 u c hc hmem
  · intro u d hd hcoll
    rw [show alGet
        ({ document_collections := _, documents := ls.delDocs.foldl (fun m u =>
            match alGet m u with
            | some d => if d.provision then m else alDel m u
            | none => m) ls.docs } : SyncState).documents u
      = alGet (ls.delDocs.foldl (fun m u =>
          match alGet m u with
          | some d => if d.provision then m else alDel m u
          | none => m) ls.docs) u from rfl,
      docsDeleteFold_get] at hd
    rw [show alGet
        ({ document_collections := ls.delColls.foldl (fun m u => alDel m u) ls.colls,
           documents := _ } : SyncState).document_collections u
      = alGet (ls.delColls.foldl (fun m u => alDel m u) ls.colls) u from rfl,
      collsDeleteFold_get] at hcoll
    by_cases hmem : u ∈ ls.delDocs
    · rw [if_pos hmem] at hd
      rcases hdd : alGet ls.docs u with _ | d'
      · simp only [hdd] at hd
        exact Option.noConfusion hd
      · simp only [hdd] at hd
        by_cases hprov : d'.provision
        · rw [if_pos hprov] at hd
          have hde : d' = d := Option.some.inj hd
          subst hde
          refine Or.inr ⟨hprov, ?_⟩
          intro f hf hfu
          rcases hIA8 f hf with h | h | h
          · exact h
          · exfalso
            rw [hfu] at h
            by_cases hmc : u ∈ ls.delColls
            · exact h.1 hmc
            · rw [if_neg hmc] at hcoll
              exact h.2 hcoll
          · exact absurd hmem (hfu ▸ h.1)
        · rw [if_neg hprov] at hd
          exact Option.noConfusion hd
    · rw [if_neg hmem] at hd
      exact Or.inl (hIA2 u d hd hmem)
  · intro u d hd hcoll
    obtain ⟨c, hc⟩ := hcoll
    rw [show alGet
        ({ document_collections := ls.delColls.foldl (fun m u => alDel m u) ls.colls,
           documents := _ } : SyncState).document_collections u
      = alGet (ls.delColls.foldl (fun m u => alDel m u) ls.colls) u from rfl,
      collsDeleteFold_get] at hc
    rw [show alGet
        ({ document_collections := _, documents := ls.delDocs.foldl (fun m u =>
            match alGet m u with
            | some d => if d.provision then m else alDel m u
            | none => m) ls.docs } : SyncState).documents u
      = alGet (ls.delDocs.foldl (fun m u =>
          match alGet m u with
          | some d => if d.provision then m else alDel m u
          | none => m) ls.docs) u from rfl,
      docsDeleteFold_get] at hd
    by_cases hmc : u ∈ ls.delColls
    · rw [if_pos hmc] at hc
      exact Option.noConfusion hc
    · rw [if_neg hmc] at hc
      by_cases hmem : u ∈ ls.delDocs
      · rw [if_pos hmem] at hd
        rcases hdd : alGet ls.docs u with _ | d'
        · simp only [hdd] at hd
          exact Option.noConfusion hd
        · simp only [hdd] at hd
          by_cases hprov : d'.provision
          · rw [if_pos hprov] at hd
            rw [← Option.some.inj hd]
            exact hprov
          · rw [if_neg hprov] at hd
            exact Option.noConfusion hd
      · rw [if_neg hmem] at hd
        exact absurd (hIA5 u (by rw [hc]; exact fun h => Option.noConfusion h)
          hmc (by rw [hd]; exact fun h => Option.noConfusion h)) hmem
  · intro f hf hc hd
    rw [show alGet
        ({ document_collections := ls.delColls.foldl (fun m u => alDel m u) ls.colls,
           documents := _ } : SyncState).document_collections f.uuid
      = alGet (ls.delColls.foldl (fun m u => alDel m u) ls.colls) f.uuid from rfl,
      collsDeleteFold_get] at hc
    rw [show alGet
        ({ document_collections := _, documents := ls.delDocs.foldl (fun m u =>
            match alGet m u with
            | some d => if d.provision then m else alDel m u
            | none => m) ls.docs } : SyncState).documents f.uuid
      = alGet (ls.delDocs.foldl (fun m u =>
          match alGet m u with
          | some d => if d.provision then m else alDel m u
          | none => m) ls.docs) f.uuid from rfl,
      docsDeleteFold_get] at hd
    rcases hIA8 f hf with h | h | h
    · exact h
    · exfalso
      rw [if_neg h.1] at hc
      exact h.2 hc
    · exfalso
      rw [if_neg h.1] at hd
      rcases hdd : alGet ls.docs f.uuid with _ | d'
      · exact h.2 hdd
      · simp only [hdd] at hd
        exact Option.noConfusion hd

theorem run_settled (env : SyncRemote) (files : List FileEntry) (s : SyncState)
    (hroot : (files.map FileEntry.uuid).Nodup)
    (hidx : ∀ f ∈ files, ((env.index f.hash).map FileEntry.uuid).Nodup)
    (hck : (s.document_collections.map (fun p => p.1)).Nodup)
    (hdk : (s.documents.map (fun p => p.1)).Nodup) :
    SettledState env files (get_documents_using_root env files s).state := by
  have hInv := phaseA_invA env files.length files [] 0 (initLoopState s)
    hidx (by simpa using hroot) (invA_init env s hck hdk)
  rw [List.nil_append] at hInv
  exact settled_of_invA env files _ hInv

/-! ## Key sets through one run -/

theorem keys_set_nodup {α : Type} (m : List (String × α)) (k : String) (v : α)
    (h : (m.map (fun p => p.1)).Nodup) :
    ((alSet m k v).map (fun p => p.1)).Nodup := by
  unfold alSet
  split
  · have he : (m.map (fun p => if p.1 = k then (k, v) else p)).map (fun p => p.1)
        = m.map (fun p => p.1) := by
      rw [List.map_map]
      refine List.map_congr_left ?_
      intro p _
      by_cases hpk : p.1 = k
      · simp [hpk]
      · simp [hpk]
    rw [he]
    exact h
  · rename_i hany
    have hk : k ∉ m.map (fun p => p.1) := by
      intro hmem
      apply hany
      rw [List.any_eq_true]
      obtain ⟨p, hp, hpk⟩ := List.mem_map.1 hmem
      exact ⟨p, hp, by simp [hpk]⟩
    simp [List.nodup_append, h, hk]

theorem keys_del_nodup {α : Type} (m : List (String × α)) (k : String)
    (h : (m.map (fun p => p.1)).Nodup) :
    ((alDel m k).map (fun p => p.1)).Nodup :=
  List.Nodup.sublist ((List.filter_sublist m).map (fun p => p.1)) h

theorem keys_collFastPath (fid : String) (c : DocumentCollection)
    (ls : LoopState) :
    (collFastPath fid c ls).colls.map (fun p => p.1)
      = ls.colls.map (fun p => p.1)
    ∧ (collFastPath fid c ls).docs = ls.docs := by
  refine ⟨?_, rfl⟩
  unfold collFastPath
  dsimp only
  split
  · split
    · dsimp only
      rw [keys_modify]
    · dsimp only
      rw [keys_modify, keys_modify]
  · split
    · dsimp only
    · dsimp only
      rw [keys_modify]

theorem keys_docFastPath (fid : String) (d : Document) (ls : LoopState) :
    (docFastPath fid d ls).colls.map (fun p => p.1)
      = ls.colls.map (fun p => p.1)
    ∧ (docFastPath fid d ls).docs = ls.docs := by
  refine ⟨?_, rfl⟩
  unfold docFastPath
  dsimp only
  split
  · rw [keys_modify]
  · rfl

theorem keys_createColl (fid : String) (md : Metadata) (cnt : Option JsonVal)
    (ls : LoopState) (hc : (ls.colls.map (fun p => p.1)).Nodup) :
    ((createColl fid md cnt ls).colls.map (fun p => p.1)).Nodup
    ∧ (createColl fid md cnt ls).docs = ls.docs := by
  refine ⟨?_, rfl⟩
  unfold createColl
  dsimp only
  have h1 := keys_set_nodup ls.colls fid
    ({ uuid := fid, metadata := md, tags := tagsOf cnt, has_items := false }) hc
  split
  · split
    · rw [keys_modify, keys_modify]
      exact h1
    · rw [keys_modify]
      exact h1
  · split
    · rw [keys_modify]
      exact h1
    · exact h1

theorem keys_createDoc (fid : String) (md : Metadata) (cnt : Option JsonVal)
    (chash : String) (fc : List FileEntry) (mh : Bool) (ls : LoopState)
    (hd : (ls.docs.map (fun p => p.1)).Nodup) :
    (createDoc fid md cnt chash fc mh ls).colls.map (fun p => p.1)
      = ls.colls.map (fun p => p.1)
    ∧ ((createDoc fid md cnt chash fc mh ls).docs.map (fun p => p.1)).Nodup := by
  constructor
  · unfold createDoc
    dsimp only
    split
    · rw [keys_modify]
    · rfl
  · exact keys_set_nodup ls.docs fid _ hd

theorem keys_applyMetadataItem (env : SyncRemote) (fid : String)
    (sfc : List FileEntry) (mh : Bool) (item : FileEntry)
    (cnt : Option JsonVal) (ls : LoopState)
    (hc : (ls.colls.map (fun p => p.1)).Nodup)
    (hd : (ls.docs.map (fun p => p.1)).Nodup) :
    ((applyMetadataItem env fid sfc mh item cnt ls).colls.map
        (fun p => p.1)).Nodup
    ∧ ((applyMetadataItem env fid sfc mh item cnt ls).docs.map
        (fun p => p.1)).Nodup := by
  have hparse : ((parseMetadataPath env fid sfc mh item cnt ls).colls.map
        (fun p => p.1)).Nodup
      ∧ ((parseMetadataPath env fid sfc mh item cnt ls).docs.map
        (fun p => p.1)).Nodup := by
    unfold parseMetadataPath
    rcases env.metadataOf item.hash with _ | md
    · exact ⟨hc, hd⟩
    · dsimp only
      by_cases hct : md.1 = "CollectionType"
      · rw [if_pos hct]
        obtain ⟨h1, h2⟩ := keys_createColl fid
          { type := md.1, parent := md.2, hash := item.hash } cnt ls hc
        exact ⟨h1, by rw [h2]; exact hd⟩
      · rw [if_neg hct]
        by_cases hdt : md.1 = "DocumentType"
        · rw [if_pos hdt]
          obtain ⟨h1, h2⟩ := keys_createDoc fid
            { type := md.1, parent := md.2, hash := item.hash } cnt item.hash
            sfc mh ls hd
          exact ⟨by rw [h1]; exact hc, h2⟩
        · rw [if_neg hdt]
          exact ⟨hc, hd⟩
  unfold applyMetadataItem
  rcases alGet ls.colls fid with _ | oldColl
  · rcases alGet ls.docs fid with _ | oldDoc
    · exact hparse
    · dsimp only
      split
      · obtain ⟨h1, h2⟩ := keys_docFastPath fid oldDoc ls
        exact ⟨by rw [h1]; exact hc, by rw [h2]; exact hd⟩
      · exact hparse
  · dsimp only
    split
    · obtain ⟨h1, h2⟩ := keys_collFastPath fid oldColl ls
      exact ⟨by rw [h1]; exact hc, by rw [h2]; exact hd⟩
    · exact hparse

theorem keys_processItems (env : SyncRemote) (fid : String)
    (sfc : List FileEntry) (mh : Bool) :
    ∀ (items : List FileEntry) (content : Option JsonVal) (ls : LoopState),
      (ls.colls.map (fun p => p.1)).Nodup →
      (ls.docs.map (fun p => p.1)).Nodup →
      ((processItems env fid sfc mh items content ls).colls.map
          (fun p => p.1)).Nodup
      ∧ ((processItems env fid sfc mh items content ls).docs.map
          (fun p => p.1)).Nodup
  | [], _, ls, hc, hd => ⟨hc, hd⟩
  | item :: rest, content, ls, hc, hd => by
      rw [processItems]
      by_cases h1 : item.uuid = fid ++ ".content"
      · rw [if_pos h1]
        rcases env.contentOf item.hash with _ | v
        · exact ⟨hc, hd⟩
        · dsimp only
          split
          · exact keys_processItems env fid sfc mh rest (some v) ls hc hd
          · exact ⟨hc, hd⟩
      · rw [if_neg h1]
        by_cases h2 : item.uuid = fid ++ ".metadata"
        · rw [if_pos h2]
          dsimp only
          obtain ⟨hc', hd'⟩ :=
            keys_applyMetadataItem env fid sfc mh item content ls hc hd
          split
          · exact keys_processItems env fid sfc mh rest content _ hc' hd'
          · exact ⟨hc', hd'⟩
        · rw [if_neg h2]
          exact keys_processItems env fid sfc mh rest content ls hc hd

theorem keys_phaseA (env : SyncRemote) (total : Nat) :
    ∀ (todo : List FileEntry) (i : Nat) (ls : LoopState),
      (ls.colls.map (fun p => p.1)).Nodup →
      (ls.docs.map (fun p => p.1)).Nodup →
      ((phaseA env total todo i ls).1.colls.map (fun p => p.1)).Nodup
      ∧ ((phaseA env total todo i ls).1.docs.map (fun p => p.1)).Nodup
  | [], _, ls, hc, hd => ⟨hc, hd⟩
  | g :: rest, i, ls, hc, hd => by
      obtain ⟨hc', hd'⟩ := keys_processItems env g.uuid
        (sortByKey intLe get_file_item_order (env.index g.hash))
        (g.hash == documentExpectedHash g.uuid (env.index g.hash))
        (sortByKey intLe get_file_item_order (env.index g.hash)) none ls hc hd
      exact keys_phaseA env total rest (i + 1) (processFile env g ls) hc' hd'

theorem keys_collsFold :
    ∀ (l : List String) (m : List (String × DocumentCollection)),
      (m.map (fun p => p.1)).Nodup →
      ((l.foldl (fun m u => alDel m u) m).map (fun p => p.1)).Nodup
  | [], m, h => h
  | u :: rest, m, h => by
      rw [List.foldl_cons]
      exact keys_collsFold rest (alDel m u) (keys_del_nodup m u h)

theorem keys_docsFold :
    ∀ (l : List String) (m : List (String × Document)),
      (m.map (fun p => p.1)).Nodup →
      ((l.foldl (fun m u =>
          match alGet m u with
          | some d => if d.provision then m else alDel m u
          | none => m) m).map (fun p => p.1)).Nodup
  | [], m, h => h
  | u :: rest, m, h => by
      rw [List.foldl_cons]
      refine keys_docsFold rest _ ?_
      rcases alGet m u with _ | d
      · exact h
      · dsimp only
        split
        · exact h
        · exact keys_del_nodup m u h

theorem keys_run (env : SyncRemote) (files : List FileEntry) (s : SyncState)
    (hck : (s.document_collections.map (fun p => p.1)).Nodup)
    (hdk : (s.documents.map (fun p => p.1)).Nodup) :
    ((get_documents_using_root env files s).state.document_collections.map
        (fun p => p.1)).Nodup
    ∧ ((get_documents_using_root env files s).state.documents.map
        (fun p => p.1)).Nodup := by
  obtain ⟨hc, hd⟩ := keys_phaseA env files.length files 0 (initLoopState s)
    hck hdk
  exact ⟨keys_collsFold _ _ hc, keys_docsFold _ _ hd⟩

/-! ## A second run from a settled state -/

theorem collsCoreEq_trans {m1 m2 m3 : List (String × DocumentCollection)}
    (h1 : collsCoreEq m1 m2) (h2 : collsCoreEq m2 m3) : collsCoreEq m1 m3 := by
  unfold collsCoreEq at h1 h2 ⊢
  rw [h1, h2]

theorem collsCoreEq_pointwise :
    ∀ (m1 m2 : List (String × DocumentCollection)),
      collsCoreEq m1 m2 →
      ∀ u, (alGet m1 u).map collCore = (alGet m2 u).map collCore
  | [], [], _, _ => rfl
  | [], p :: ps, h, _ => absurd h (by simp [collsCoreEq])
  | p :: ps, [], h, _ => absurd h (by simp [collsCoreEq])
  | p :: ps, q :: qs, h, u => by
      unfold collsCoreEq at h
      simp only [List.map_cons, List.cons.injEq, Prod.mk.injEq] at h
      obtain ⟨⟨hk, hcore⟩, hrest⟩ := h
      rw [alGet_cons, alGet_cons]
      by_cases hp : p.1 = u
      · rw [if_pos hp, if_pos (hk ▸ hp)]
        simp [hcore]
      · rw [if_neg hp, if_neg (fun hq => hp (hk ▸ hq))]
        exact collsCoreEq_pointwise ps qs hrest u

theorem coreMap_modify (m : List (String × DocumentCollection)) (k : String)
    (b : Bool) :
    collsCoreEq (alModify m k (fun c => { c with has_items := b })) m := by
  unfold collsCoreEq alModify
  rw [List.map_map]
  refine List.map_congr_left ?_
  intro p _
  by_cases hpk : p.1 = k
  · simp [hpk, collCore]
  · simp [hpk]

theorem coreEq_collFastPath (fid : String) (c : DocumentCollection)
    (ls : LoopState) :
    collsCoreEq (collFastPath fid c ls).colls ls.colls := by
  unfold collFastPath
  dsimp only
  split
  · split
    · dsimp only
      exact coreMap_modify ls.colls c.parent true
    · dsimp only
      exact collsCoreEq_trans
        (coreMap_modify (alModify ls.colls fid
          (fun c => { c with has_items := false })) c.parent true)
        (coreMap_modify ls.colls fid false)
  · split
    · dsimp only
      exact rfl
    · dsimp only
      exact coreMap_modify ls.colls fid false

theorem coreEq_docFastPath (fid : String) (d : Document) (ls : LoopState) :
    collsCoreEq (docFastPath fid d ls).colls ls.colls := by
  unfold docFastPath
  dsimp only
  split
  · exact coreMap_modify ls.colls d.parent true
  · exact rfl

theorem file_uuid_inj {files : List FileEntry}
    (hroot : (files.map FileEntry.uuid).Nodup) {f g : FileEntry}
    (hf : f ∈ files) (hg : g ∈ files) (h : f.uuid = g.uuid) : f = g :=
  List.inj_on_of_nodup_map hroot hf hg h

theorem parsePath_stuck_eq (env : SyncRemote) (g : FileEntry)
    (sfc : List FileEntry) (mh : Bool) (item : FileEntry)
    (cnt : Option JsonVal) (ls : LoopState)
    (hreach : reachableMetadata env g = some (item, cnt))
    (hstuck : Stuck env g) :
    parseMetadataPath env g.uuid sfc mh item cnt ls = ls := by
  simp only [Stuck, hreach] at hstuck
  unfold parseMetadataPath
  rcases hparse : env.metadataOf item.hash with _ | md
  · rfl
  · simp only [hparse] at hstuck
    dsimp only
    rw [if_neg hstuck.1, if_neg hstuck.2]

theorem rerun_step (env : SyncRemote) (files : List FileEntry) (t : SyncState)
    (hset : SettledState env files t)
    (hroot : (files.map FileEntry.uuid).Nodup)
    (g : FileEntry) (hg : g ∈ files)
    (hidx : ((env.index g.hash).map FileEntry.uuid).Nodup)
    (ls : LoopState)
    (hB1 : collsCoreEq ls.colls t.document_collections)
    (hB2 : ls.docs = t.documents)
    (hN1 : ls.delColls.Nodup) (hN2 : ls.delDocs.Nodup) :
    collsCoreEq (processFile env g ls).colls t.document_collections
    ∧ (processFile env g ls).docs = t.documents
    ∧ (∀ u, u ∈ (processFile env g ls).delColls → u ∈ ls.delColls)
    ∧ (∀ u, u ∈ (processFile env g ls).delDocs → u ∈ ls.delDocs)
    ∧ (processFile env g ls).delColls.Nodup
    ∧ (processFile env g ls).delDocs.Nodup
    ∧ (∀ c, alGet t.document_collections g.uuid = some c →
        g.uuid ∉ (processFile env g ls).delColls)
    ∧ (∀ d, alGet t.documents g.uuid = some d → d.provision = false →
        g.uuid ∉ (processFile env g ls).delDocs) := by
  obtain ⟨hS1, hS2, hS3, hS4⟩ := hset
  have hpt := collsCoreEq_pointwise _ _ hB1
  rw [processFile_eq_walk env g ls hidx]
  rcases hreach : reachableMetadata env g with _ | ⟨item, cnt⟩
  · refine ⟨hB1, hB2, fun _ h => h, fun _ h => h, hN1, hN2, ?_, ?_⟩
    · intro c hc
      exfalso
      obtain ⟨f, hf, hfu, item, cnt, hr, _⟩ := hS1 g.uuid c hc
      rw [file_uuid_inj hroot hf hg hfu, hreach] at hr
      exact Option.noConfusion hr
    · intro d hd hprov
      exfalso
      by_cases hcol : alGet t.document_collections g.uuid = none
      · rcases hS2 g.uuid d hd hcol with h | h
        · obtain ⟨f, hf, hfu, item, cnt, hr, _⟩ := h
          rw [file_uuid_inj hroot hf hg hfu, hreach] at hr
          exact Option.noConfusion hr
        · have h1 := h.1
          rw [hprov] at h1
          exact Bool.noConfusion h1
      · rcases hm : alGet t.document_collections g.uuid with _ | c
        · exact hcol hm
        · have h1 := hS3 g.uuid d hd ⟨c, hm⟩
          rw [hprov] at h1
          exact Bool.noConfusion h1
  · unfold applyMetadataItem
    rcases hcu : alGet ls.colls g.uuid with _ | oldColl
    · have htc : alGet t.document_collections g.uuid = none :=
        (core_none_iff (hpt g.uuid)).1 hcu
      rcases hdu : alGet ls.docs g.uuid with _ | oldDoc
      · have htd : alGet t.documents g.uuid = none := by
          rw [← hB2]; exact hdu
        have hstuck : Stuck env g := hS4 g hg htc htd
        dsimp only
        rw [parsePath_stuck_eq env g _ _ item cnt ls hreach hstuck]
        refine ⟨hB1, hB2, fun _ h => h, fun _ h => h, hN1, hN2, ?_, ?_⟩
        · intro c hc
          rw [htc] at hc
          exact absurd hc (fun h => Option.noConfusion h)
        · intro d hd _
          rw [htd] at hd
          exact absurd hd (fun h => Option.noConfusion h)
      · have htd : alGet t.documents g.uuid = some oldDoc := by
          rw [← hB2]; exact hdu
        dsimp only
        by_cases hmatch : oldDoc.metadata.hash = item.hash
        · rw [if_pos hmatch]
          obtain ⟨hfd, hfdc, hfdd, hfcore⟩ := docFastPath_fields g.uuid oldDoc ls
          refine ⟨collsCoreEq_trans (coreEq_docFastPath g.uuid oldDoc ls) hB1,
            by rw [hfd]; exact hB2,
            fun u h => by rw [hfdc] at h; exact h,
            fun u h => by rw [hfdd] at h; exact List.mem_of_mem_erase h,
            by rw [hfdc]; exact hN1,
            by rw [hfdd]; exact hN2.erase _, ?_, ?_⟩
          · intro c hc
            rw [htc] at hc
            exact absurd hc (fun h => Option.noConfusion h)
          · intro d _ _
            rw [hfdd]
            exact hN2.not_mem_erase
        · rw [if_neg hmatch]
          rcases hS2 g.uuid oldDoc htd htc with h | h
          · exfalso
            obtain ⟨f, hf, hfu, item', cnt', hr, hh⟩ := h
            rw [file_uuid_inj hroot hf hg hfu, hreach] at hr
            have h1 : item' = item := (congrArg Prod.fst (Option.some.inj hr)).symm
            rw [h1] at hh
            exact hmatch hh.symm
          · have hstuck : Stuck env g := h.2 g hg rfl
            rw [parsePath_stuck_eq env g _ _ item cnt ls hreach hstuck]
            refine ⟨hB1, hB2, fun _ hh => hh, fun _ hh => hh, hN1, hN2, ?_, ?_⟩
            · intro c hc
              rw [htc] at hc
              exact absurd hc (fun hh => Option.noConfusion hh)
            · intro d hd hprov
              exfalso
              rw [htd] at hd
              have h1 := h.1
              rw [Option.some.inj hd, hprov] at h1
              exact Bool.noConfusion h1
    · obtain ⟨c, htcc, hcore⟩ := core_some_inv (hpt g.uuid) hcu
      obtain ⟨f, hf, hfu, item', cnt', hr, hh⟩ := hS1 g.uuid c htcc
      rw [file_uuid_inj hroot hf hg hfu, hreach] at hr
      have h1 : item' = item := (congrArg Prod.fst (Option.some.inj hr)).symm
      rw [h1, collCore_metadata_eq hcore] at hh
      dsimp only
      rw [if_pos hh.symm]
      obtain ⟨hfd, hfdd, hfdc, hfcore⟩ := collFastPath_fields g.uuid oldColl ls
      refine ⟨collsCoreEq_trans (coreEq_collFastPath g.uuid oldColl ls) hB1,
        by rw [hfd]; exact hB2,
        fun u h => by rw [hfdc] at h; exact List.mem_of_mem_erase h,
        fun u h => by rw [hfdd] at h; exact h,
        by rw [hfdc]; exact hN1.erase _,
        by rw [hfdd]; exact hN2, ?_, ?_⟩
      · intro c' _
        rw [hfdc]
        exact hN1.not_mem_erase
      · intro d hd hprov
        exfalso
        have h2 := hS3 g.uuid d hd ⟨c, htcc⟩
        rw [hprov] at h2
        exact Bool.noConfusion h2

theorem rerun_phaseA (env : SyncRemote) (files : List FileEntry) (t : SyncState)
    (hset : SettledState env files t)
    (hroot : (files.map FileEntry.uuid).Nodup)
    (hidx : ∀ f ∈ files, ((env.index f.hash).map FileEntry.uuid).Nodup)
    (total : Nat) :
    ∀ (todo : List FileEntry) (i : Nat) (ls : LoopState),
      (∀ f ∈ todo, f ∈ files) →
      InvB t todo ls →
      InvB t [] (phaseA env total todo i ls).1
  | [], _, _, _, hInv => hInv
  | g :: rest, i, ls, hsub, hInv => by
      obtain ⟨hB1, hB2, hN1, hN2, hB5, hB6, hB7⟩ := hInv
      have hg : g ∈ files := hsub g (by simp)
      obtain ⟨h1, h2, h3, h4, h5, h6, h7, h8⟩ :=
        rerun_step env files t hset hroot g hg (hidx g hg) ls hB1 hB2 hN1 hN2
      have hb6 : ∀ u c, alGet t.document_collections u = some c →
          (∃ f ∈ rest, f.uuid = u) ∨ u ∉ (processFile env g ls).delColls := by
        intro u c hc
        rcases hB6 u c hc with ⟨f, hf, hfu⟩ | hnot
        · by_cases hu : g.uuid = u
          · subst hu
            exact Or.inr (h7 c hc)
          · rcases List.mem_cons.1 hf with hfg | hfr
            · rw [hfg] at hfu
              exact absurd hfu hu
            · exact Or.inl ⟨f, hfr, hfu⟩
        · exact Or.inr (fun hmem => hnot (h3 u hmem))
      have hb7 : ∀ u d, alGet t.documents u = some d → d.provision = false →
          (∃ f ∈ rest, f.uuid = u) ∨ u ∉ (processFile env g ls).delDocs := by
        intro u d hd hprov
        rcases hB7 u d hd hprov with ⟨f, hf, hfu⟩ | hnot
        · by_cases hu : g.uuid = u
          · subst hu
            exact Or.inr (h8 d hd hprov)
          · rcases List.mem_cons.1 hf with hfg | hfr
            · rw [hfg] at hfu
              exact absurd hfu hu
            · exact Or.inl ⟨f, hfr, hfu⟩
        · exact Or.inr (fun hmem => hnot (h4 u hmem))
      have hrec := rerun_phaseA env files t hset hroot hidx total rest (i + 1)
        (processFile env g ls) (fun f hf => hsub f (List.mem_cons_of_mem g hf))
        ⟨h1, h2, h5, h6, fun u hu => hB5 u (h3 u hu), hb6, hb7⟩
      simpa [phaseA] using hrec

theorem docsDeleteFold_id :
    ∀ (l : List String) (m : List (String × Document)),
      (∀ u ∈ l, ∀ d, alGet m u = some d → d.provision = true) →
      l.foldl (fun m u =>
        match alGet m u with
        | some d => if d.provision then m else alDel m u
        | none => m) m = m
  | [], _, _ => rfl
  | u :: rest, m, h => by
      rw [List.foldl_cons]
      have hstep : (match alGet m u with
          | some d => if d.provision then m else alDel m u
          | none => m) = m := by
        rcases hm : alGet m u with _ | d
        · rfl
        · dsimp only
          rw [if_pos (h u (by simp) d hm)]
      rw [hstep]
      exact docsDeleteFold_id rest m (fun v hv => h v (by simp [hv]))

theorem rerun_noop (env : SyncRemote) (files : List FileEntry) (t : SyncState)
    (hset : SettledState env files t)
    (hroot : (files.map FileEntry.uuid).Nodup)
    (hidx : ∀ f ∈ files, ((env.index f.hash).map FileEntry.uuid).Nodup)
    (hck : (t.document_collections.map (fun p => p.1)).Nodup)
    (hdk : (t.documents.map (fun p => p.1)).Nodup) :
    (get_documents_using_root env files t).state.documents = t.documents
    ∧ collsCoreEq
        (get_documents_using_root env files t).state.document_collections
        t.document_collections := by
  have hInit : InvB t files (initLoopState t) := by
    refine ⟨rfl, rfl, hck, hdk, ?_, ?_, ?_⟩
    · intro u hu
      obtain ⟨v, hv⟩ := alGet_isSome_of_mem_keys t.document_collections u hu
      rw [hv]
      exact fun h => Option.noConfusion h
    · intro u c hc
      obtain ⟨f, hf, hfu, _⟩ := hset.1 u c hc
      exact Or.inl ⟨f, hf, hfu⟩
    · intro u d hd hprov
      by_cases hcol : alGet t.document_collections u = none
      · rcases hset.2.1 u d hd hcol with h | h
        · obtain ⟨f, hf, hfu, _⟩ := h
          exact Or.inl ⟨f, hf, hfu⟩
        · have h1 := h.1
          rw [hprov] at h1
          exact Bool.noConfusion h1
      · rcases hm : alGet t.document_collections u with _ | c
        · exact absurd hm hcol
        · have h1 := hset.2.2.1 u d hd ⟨c, hm⟩
          rw [hprov] at h1
          exact Bool.noConfusion h1
  obtain ⟨hB1, hB2, hN1, hN2, hB5, hB6, hB7⟩ :=
    rerun_phaseA env files t hset hroot hidx files.length files 0
      (initLoopState t) (fun _ hf => hf) hInit
  have hdc : (phaseA env files.length files 0 (initLoopState t)).1.delColls
      = [] := by
    rw [List.eq_nil_iff_forall_not_mem]
    intro u hu
    rcases hm : alGet t.document_collections u with _ | c
    · exact hB5 u hu hm
    · rcases hB6 u c hm with ⟨f, hf, _⟩ | h
      · exact absurd hf (List.not_mem_nil f)
      · exact h hu
  have hstate : (get_documents_using_root env files t).state
      = { document_collections :=
            (phaseA env files.length files 0 (initLoopState t)).1.delColls.foldl
              (fun m u => alDel m u)
              (phaseA env files.length files 0 (initLoopState t)).1.colls,
          documents :=
            (phaseA env files.length files 0 (initLoopState t)).1.delDocs.foldl
              (fun m u =>
                match alGet m u with
                | some d => if d.provision then m else alDel m u
                | none => m)
              (phaseA env files.length files 0 (initLoopState t)).1.docs } := rfl
  rw [hstate]
  constructor
  · show (phaseA env files.length files 0 (initLoopState t)).1.delDocs.foldl _
        (phaseA env files.length files 0 (initLoopState t)).1.docs
      = t.documents
    rw [hB2]
    refine docsDeleteFold_id _ t.documents ?_
    intro u hu d hd
    rcases hb : d.provision with _ | _
    · rcases hB7 u d hd hb with ⟨f, hf, _⟩ | h
      · exact absurd hf (List.not_mem_nil f)
      · exact absurd hu h
    · rfl
  · show collsCoreEq
        ((phaseA env files.length files 0 (initLoopState t)).1.delColls.foldl
          (fun m u => alDel m u)
          (phaseA env files.length files 0 (initLoopState t)).1.colls)
        t.document_collections
    rw [hdc, List.foldl_nil]
    exact hB1

/-- C3 (amended): for every starting local state whose map keys are
duplicate-free, and any remote whose root and per-document indices carry no
duplicate uuids, running the tree resolver twice with the identical remote
leaves the `documents` map of the second run exactly equal to the first
run's, and the `document_collections` map equal entry-by-entry up to the
derived `has_items` flag (the flag itself can differ — see the recorded
counterexample — so the claim's full map equality is too strong). -/
theorem C3_sync_idempotent_up_to_has_items (env : SyncRemote)
    (files : List FileEntry) (s : SyncState)
    (hroot : (files.map FileEntry.uuid).Nodup)
    (hidx : ∀ f ∈ files, ((env.index f.hash).map FileEntry.uuid).Nodup)
    (hck : (s.document_collections.map (fun p => p.1)).Nodup)
    (hdk : (s.documents.map (fun p => p.1)).Nodup) :
    (get_documents_using_root env files
        (get_documents_using_root env files s).state).state.documents
      = (get_documents_using_root env files s).state.documents
    ∧ collsCoreEq
        (get_documents_using_root env files
          (get_documents_using_root env files s).state).state.document_collections
        (get_documents_using_root env files s).state.document_collections := by
  obtain ⟨hck1, hdk1⟩ := keys_run env files s hck hdk
  exact rerun_noop env files (get_documents_using_root env files s).state
    (run_settled env files s hroot hidx hck hdk) hroot hidx hck1 hdk1

/-- Witness for C3 (amended) at the two-collection remote of the
counterexample: the very state whose `has_items` flag flips still has
stable maps up to that flag. -/
theorem C3_witness :
    (nonIdemRoot.map FileEntry.uuid).Nodup ∧
    (∀ f ∈ nonIdemRoot,
      ((nonIdemRemote.index f.hash).map FileEntry.uuid).Nodup) ∧
    ((get_documents_using_root nonIdemRemote nonIdemRoot
        (get_documents_using_root nonIdemRemote nonIdemRoot
          nonIdemState).state).state.documents
      = (get_documents_using_root nonIdemRemote nonIdemRoot
          nonIdemState).state.documents
    ∧ collsCoreEq
        (get_documents_using_root nonIdemRemote nonIdemRoot
          (get_documents_using_root nonIdemRemote nonIdemRoot
            nonIdemState).state).state.document_collections
        (get_documents_using_root nonIdemRemote nonIdemRoot
          nonIdemState).state.document_collections) :=
  ⟨by decide, by decide,
   C3_sync_idempotent_up_to_has_items nonIdemRemote nonIdemRoot nonIdemState
     (by decide) (by decide) (by decide) (by decide)⟩

end Moss
